import Mathlib

/-!
Verification of the core logic of the `file-namer` repository
(`src/newapp.py`, with the variant worker of `src/newapp3.py` where noted).

The Python code is shallowly embedded:
* Python strings are Lean `String`s; character-level work happens on `String.data`.
* `pathlib.Path` values that matter (destination files) are embedded as a
  directory string plus a file-name string (`PyPath`); the path separator is
  written `"/"`.
* Directory contents are embedded as lists of the regular-file names in scan
  order; a missing directory is `none`.
* The regexes of `newapp.py` are embedded as explicit character-index searches.
  Each embedding carries a comment relating it to the regex it models.
* The filesystem touched by `safe_copy2_atomic` is a partial map from `PyPath`
  to file size (`FSModel`); fault injection drives the exception paths.
-/

namespace FileNamer

/-! ### Python string/path primitives -/

/-- Index of the last `'.'` in a file name (`str.rfind('.')`). -/
def rfindDot (l : List Char) : Option Nat :=
  (List.range l.length).reverse.find? (fun i => l[i]? == some '.')

/-- The split position used by `pathlib`: `i = name.rfind('.')` is the split
point iff `0 < i < len(name) - 1`; otherwise the suffix is empty. -/
def pySplitIdx (l : List Char) : Option Nat :=
  match rfindDot l with
  | none => none
  | some i => if 0 < i ∧ i + 1 < l.length then some i else none

/-- `pathlib.PurePath.stem` of a file name. -/
def pyStem (name : String) : String :=
  match pySplitIdx name.data with
  | some i => ⟨name.data.take i⟩
  | none => name

/-- `pathlib.PurePath.suffix` of a file name (with the dot). -/
def pySuffix (name : String) : String :=
  match pySplitIdx name.data with
  | some i => ⟨name.data.drop i⟩
  | none => ""

/-- `str.rstrip('_')`: remove every trailing underscore. -/
def rstripUnderscores (l : List Char) : List Char :=
  (l.reverse.dropWhile (fun c => c == '_')).reverse

/-- Decimal rendering of a natural number, as Python's `f"{i}"` produces.
The recursion is driven by fuel so that evaluation stays structural;
`n + 1` units always suffice (`decVal_natDecimal`). -/
def natDecimalAux : Nat → Nat → List Char
  | 0, _ => []
  | fuel + 1, n =>
    if n < 10 then [Char.ofNat (48 + n)]
    else natDecimalAux fuel (n / 10) ++ [Char.ofNat (48 + n % 10)]

def natDecimal (n : Nat) : List Char := natDecimalAux (n + 1) n

/-- Value of a digit string, used only to prove `natDecimal` injective. -/
def decVal (l : List Char) : Nat :=
  l.foldl (fun a c => 10 * a + (c.toNat - 48)) 0

theorem toNat_digitChar (d : Nat) (h : d < 10) : (Char.ofNat (48 + d)).toNat = 48 + d := by
  interval_cases d <;> decide

theorem decVal_append_digit (l : List Char) (c : Char) :
    decVal (l ++ [c]) = 10 * decVal l + (c.toNat - 48) := by
  simp [decVal, List.foldl_append]

theorem decVal_natDecimalAux (fuel n : Nat) (h : n < fuel) :
    decVal (natDecimalAux fuel n) = n := by
  induction fuel generalizing n with
  | zero => omega
  | succ fuel ih =>
    rw [natDecimalAux]
    by_cases h10 : n < 10
    · simp only [h10, if_pos]
      simp [decVal, toNat_digitChar n h10]
    · simp only [h10, if_neg, not_false_iff]
      have hdiv : n / 10 < n := Nat.div_lt_self (by omega) (by omega)
      rw [decVal_append_digit, ih (n / 10) (by omega),
        toNat_digitChar (n % 10) (Nat.mod_lt _ (by omega))]
      omega

theorem decVal_natDecimal (n : Nat) : decVal (natDecimal n) = n :=
  decVal_natDecimalAux (n + 1) n (by omega)

theorem natDecimal_injective : Function.Injective natDecimal := by
  intro a b h
  have := decVal_natDecimal a
  rw [h, decVal_natDecimal] at this
  omega

/-- An embedded path: the directory part and the final file name. -/
structure PyPath where
  dir : String
  name : String
deriving DecidableEq

/-- `str(path)` for an embedded path. -/
def pyPathStr (p : PyPath) : String := p.dir ++ "/" ++ p.name

/-! ### `parse_b_file_num_and_base` (newapp.py lines 108-121)

`IMG_NUM_RE = (?:^|_)(\d{2})(?=\D*$)` searched over the stem.  A group start
`s` is a match position iff the group is preceded by the stem start or an
underscore, holds two digits, and no digit occurs after it; such a position is
unique when it exists, so leftmost search is a plain search. -/

def nnCondAt (l : List Char) (s : Nat) : Bool :=
  (s == 0 || l[s - 1]? == some '_') &&
  ((l[s]?).any Char.isDigit) &&
  ((l[s + 1]?).any Char.isDigit) &&
  ((l.drop (s + 2)).all (fun c => !c.isDigit))

def findNNStart (l : List Char) : Option Nat :=
  (List.range l.length).find? (nnCondAt l)

/-- `parse_b_file_num_and_base`: `'lumi_13.jpg' -> ('13', 'lumi', '.jpg')`,
failure is `none`.  The input is the file's final name component. -/
def parse_b_file_num_and_base (name : String) : Option (String × String × String) :=
  let stem := (pyStem name).data
  match findNNStart stem with
  | none => none
  | some s =>
    let nn : String := ⟨(stem.drop s).take 2⟩
    let base0 := if 0 < s ∧ stem[s - 1]? = some '_' then stem.take (s - 1) else stem.take s
    some (nn, ⟨rstripUnderscores base0⟩, pySuffix name)

example : parse_b_file_num_and_base "lumi_13.jpg" = some ("13", "lumi", ".jpg") := by decide
example : parse_b_file_num_and_base "noindex.jpg" = none := by decide
example : parse_b_file_num_and_base "13.jpg" = some ("13", "", ".jpg") := by decide
example : parse_b_file_num_and_base "ab__13.jpg" = some ("13", "ab", ".jpg") := by decide

/-! ### `build_hm_index_for_set` (newapp.py lines 123-161)

Index derivation for an A-side file name:
* `A_NN_END_RE = _(\d{2})(?=\.[^.]+$)` over the full name.  The lookahead pins
  the match right before the last dot (which must not be the final character),
  so the only possible group position is `p-2` for `p` the last-dot index, with
  an underscore at `p-3`.
* `A_NN_ANY_RE = (\d{2})(?!\d)` with `finditer` over the stem, taking the last
  match.  A position `q` is a standalone two-digit run iff `q` and `q+1` hold
  digits and `q+2` does not; non-overlapping scanning always reaches the
  rightmost such position (an earlier match cannot cover it, since a match
  ending inside it would need a non-digit where it has a digit), so the last
  match is the rightmost valid position. -/

def aEndCond (name : List Char) (p : Nat) : Bool :=
  decide (p + 1 < name.length) && decide (3 ≤ p) &&
  (name[p - 3]? == some '_') &&
  ((name[p - 2]?).any Char.isDigit) && ((name[p - 1]?).any Char.isDigit)

/-- The `A_NN_END_RE` match over a full file name. -/
def aEndNN (name : List Char) : Option (List Char) :=
  match rfindDot name with
  | none => none
  | some p => if aEndCond name p then some ((name.drop (p - 2)).take 2) else none

def aAnyCondAt (l : List Char) (q : Nat) : Bool :=
  ((l[q]?).any Char.isDigit) && ((l[q + 1]?).any Char.isDigit) &&
  !((l[q + 2]?).any Char.isDigit)

/-- Last `A_NN_ANY_RE` match over a stem (rightmost standalone 2-digit run). -/
def aAnyNN (stem : List Char) : Option (List Char) :=
  match (List.range stem.length).reverse.find? (aAnyCondAt stem) with
  | none => none
  | some q => some ((stem.drop q).take 2)

/-! `HM_RE = (?i)(high|middle|\bh\b|\bm\b)`: first match over the full name,
with the regex alternation order tried at each position.  `\w` is modelled
over ASCII word characters (the repository's names are ASCII). -/

def isWordChar (c : Char) : Bool := c.isAlphanum || c == '_'

def matchCI (l : List Char) (i : Nat) (w : List Char) : Bool :=
  ((l.drop i).take w.length).map Char.toLower == w

def aloneAt (l : List Char) (i : Nat) (c : Char) : Bool :=
  ((l[i]?).map Char.toLower == some c) &&
  (i == 0 || !((l[i - 1]?).any isWordChar)) &&
  !((l[i + 1]?).any isWordChar)

def hmTokenAt (l : List Char) (i : Nat) : Option String :=
  if matchCI l i "high".data then some "high"
  else if matchCI l i "middle".data then some "middle"
  else if aloneAt l i 'h' then some "h"
  else if aloneAt l i 'm' then some "m"
  else none

def hmFirstToken (l : List Char) : Option String :=
  (List.range l.length).findSome? (hmTokenAt l)

/-- `val = "H" if token in ("high","h") else ("M" if token in ("middle","m") else None)`;
the token is already lowercase. -/
def hmVal (token : String) : Option String :=
  if token = "high" ∨ token = "h" then some "H"
  else if token = "middle" ∨ token = "m" then some "M"
  else none

/-- The index of one A-side file: `A_NN_END_RE` over the name first, else the
last `A_NN_ANY_RE` match over the stem. -/
def deriveNN (name : String) : Option (List Char) :=
  match aEndNN name.data with
  | some nn => some nn
  | none => aAnyNN (pyStem name).data

/-- Index and tag derived from one A-side file name, `none` when the file is
skipped (`continue` in the source loop). -/
def deriveEntry (name : String) : Option (String × String) :=
  match deriveNN name with
  | none => none
  | some nn =>
    match hmFirstToken name.data with
    | none => none
    | some tok =>
      match hmVal tok with
      | none => none
      | some v => some (⟨nn⟩, v)

/-- A Python dict is embedded as an insertion-ordered association list with
unique keys; assignment overwrites in place or appends. -/
def pyDictInsert {α β : Type} [BEq α] (m : List (α × β)) (k : α) (v : β) : List (α × β) :=
  if (m.lookup k).isSome then m.map (fun p => if p.1 == k then (k, v) else p)
  else m ++ [(k, v)]

abbrev HMMap := List (String × String)

/-- `if nn not in mapping or val == "H": mapping[nn] = val`. -/
def hmUpdate (m : HMMap) (nn v : String) : HMMap :=
  if (m.lookup nn).isNone || v == "H" then pyDictInsert m nn v else m

/-- One iteration of the scan loop of `build_hm_index_for_set`. -/
def hmStep (m : HMMap) (name : String) : HMMap :=
  match deriveEntry name with
  | none => m
  | some (nn, v) => hmUpdate m nn v

/-- `build_hm_index_for_set`: the listing is `none` when the set folder is not
a directory (the early-return `{}` branch), else the regular files in scan
order. -/
def build_hm_index_for_set (listing : Option (List String)) : HMMap :=
  match listing with
  | none => []
  | some files => files.foldl hmStep []

example : deriveEntry "img_high_07.jpg" = some ("07", "H") := by decide
example : deriveEntry "img_middle_07.jpg" = some ("07", "M") := by decide
example : deriveEntry "raw_High_01.jpg" = some ("01", "H") := by decide
example :
    (build_hm_index_for_set (some ["img_high_07.jpg", "img_middle_07.jpg"])).lookup "07"
      = some "H" := by decide
example :
    (build_hm_index_for_set (some ["img_middle_07.jpg", "img_high_07.jpg"])).lookup "07"
      = some "H" := by decide

/-! ### `find_a_date_dir` (newapp.py lines 163-198)

The input is the list of names of `a_root`'s immediate subdirectories, in scan
order.  `sorted(...)` on `Path` values sharing a parent compares the final
names as Python strings (code-point lexicographic); Python's comparison is a
total order, so every correct sorting algorithm yields the same list
(`List.eq_of_perm_of_sorted`) and we embed `sorted` as insertion sort. -/

/-- Python code-point comparison `a <= b` on strings. -/
def strLeB : List Char → List Char → Bool
  | [], _ => true
  | _ :: _, [] => false
  | a :: as, b :: bs => if a = b then strLeB as bs else decide (a < b)

def pyStrLe (a b : String) : Bool := strLeB a.data b.data

def pyStrLeProp (a b : String) : Prop := pyStrLe a b = true

instance pyStrLeProp.instDecidable : DecidableRel pyStrLeProp := fun a b =>
  inferInstanceAs (Decidable (pyStrLe a b = true))

/-- `sorted(...)` over folder names. -/
def pySorted (l : List String) : List String := l.insertionSort pyStrLeProp

/-- `"".join(ch for ch in s if ch.isdigit())`. -/
def pyDigits (s : String) : String := ⟨s.data.filter Char.isDigit⟩

/-- The candidate filter: at least six digits whose last six equal the target
(`ds[-6:] == target_yymmdd`). -/
def candMatch (target n : String) : Bool :=
  let ds := pyDigits n
  decide (6 ≤ ds.length) && (ds.data.drop (ds.data.length - 6) == target.data)

/-- The second-tier filter: digit-only name of exactly eight digits whose last
six equal the target. -/
def eightMatch (target n : String) : Bool :=
  let ds := pyDigits n
  (ds.length == 8) && (ds.data.drop (ds.data.length - 6) == target.data)

/-- `find_a_date_dir`, returning the chosen folder name. -/
def find_a_date_dir (names : List String) (target : String) : Option String :=
  let cands := names.filter (candMatch target)
  if cands.isEmpty then none
  else
    let exact := cands.filter (fun n => n == target)
    if exact.isEmpty = false then exact.head?
    else
      let yyyymmdd := cands.filter (eightMatch target)
      if yyyymmdd.isEmpty = false then (pySorted yyyymmdd).head?
      else (pySorted cands).head?

/-- Lexicographically smallest element of a list of strings. -/
def listMinStr : List String → Option String
  | [] => none
  | x :: xs => some (xs.foldl (fun a b => if pyStrLe b a then b else a) x)

/-- Modelled from the spec (§4.5): among the immediate subdirectories whose
digit-only names have at least six digits ending in the run key, prefer the
folder named exactly the run key, then the lexicographically smallest
eight-digit match, then the lexicographically smallest remaining match;
`none` when no candidate matches. -/
def findDateFolderSpec (names : List String) (target : String) : Option String :=
  let matching := names.filter (candMatch target)
  if target ∈ matching then some target
  else
    let eight := matching.filter (eightMatch target)
    if eight.isEmpty then listMinStr matching else listMinStr eight

example : find_a_date_dir ["20250527_raw", "250527", "other_250527"] "250527" = some "250527" := by
  decide
example : find_a_date_dir ["misc", "20250527_raw", "other_250527"] "250527"
    = some "20250527_raw" := by decide
example : find_a_date_dir ["misc"] "250527" = none := by decide

/-! ### `ensure_unique_path_fast` (newapp.py lines 59-68)

The `while True` loop is embedded with explicit fuel (`none` = fuel ran out);
`ensure_unique_total` supplies enough fuel for the loop to always find a free
suffix on a finite filesystem, which is proved below. -/

/-- Existence check against a finite filesystem, `Path.exists()`. -/
def pyPathExists (fs : List PyPath) (p : PyPath) : Bool := p ∈ fs

/-- `f"{stem}_dup{i}{suffix}"`. -/
def dupName (stem : String) (i : Nat) (suffix : String) : String :=
  stem ++ "_dup" ++ ⟨natDecimal i⟩ ++ suffix

/-- `parent / f"{stem}_dup{i}{suffix}"` for the candidate at index `i`. -/
def dupCandidate (dest : PyPath) (i : Nat) : PyPath :=
  { dir := dest.dir, name := dupName (pyStem dest.name) i (pySuffix dest.name) }

def ensureUniqueLoop (fs : List PyPath) (dest : PyPath) : Nat → Nat → Option PyPath
  | 0, _ => none
  | fuel + 1, i =>
    let cand := dupCandidate dest i
    if pyPathExists fs cand then ensureUniqueLoop fs dest fuel (i + 1) else some cand

/-- `ensure_unique_path_fast` with fuel for its unbounded loop. -/
def ensure_unique_path_fast (fs : List PyPath) (fuel : Nat) (dest : PyPath) : Option PyPath :=
  if pyPathExists fs dest then ensureUniqueLoop fs dest fuel 1 else some dest

/-- Total wrapper: `fs.length + 1` candidates cannot all exist, so the fuel
suffices and the `getD` default is never used (`ensure_unique_total_spec`). -/
def ensure_unique_total (fs : List PyPath) (dest : PyPath) : PyPath :=
  (ensure_unique_path_fast fs (fs.length + 1) dest).getD dest

/-! ### `safe_copy2_atomic` (newapp.py lines 201-251)

The filesystem is a partial map from paths to file sizes; copying writes the
temporary file, `os.replace` atomically moves it onto the destination.  One
`CopyFault` per attempt drives the exception paths of a single loop body:

* `raiseInCopy leftover` — `shutil.copy2` raises, possibly leaving a partial
  temporary file of size `leftover` (a failure injected mid-copy);
* `completeCopy n replaceOk` — the copy call returns with the temporary file
  at size `n` (`n ≠` source size models a partial write surfacing at the size
  verification), after which `os.replace` succeeds iff `replaceOk`.

`shutil.copy2` on a missing source raises regardless of the fault.  The
swallowed `fsync`/inner-`unlink` exceptions change no modelled state.  The
constants mirror the source options; `0.15` is written as the rational
`15/100`. -/

abbrev FSModel := PyPath → Option Nat

def fsSet (fs : FSModel) (p : PyPath) (v : Option Nat) : FSModel :=
  fun q => if q = p then v else fs q

def RETRY_MAX : Nat := 3

def RETRY_BACKOFF_BASE : ℚ := 15 / 100

def VERIFY_SIZE : Bool := true

/-- `dst_final.with_name(dst_final.name + ".part")`. -/
def tmpOf (dst : PyPath) : PyPath := { dir := dst.dir, name := dst.name ++ ".part" }

inductive CopyFault where
  | raiseInCopy (leftover : Option Nat)
  | completeCopy (written : Nat) (replaceOk : Bool)

/-- One body of the retry loop: `true` with the post-state on success, `false`
with the intermediate state when an exception is raised. -/
def copyAttempt (f : CopyFault) (src dst tmp : PyPath) (fs : FSModel) : Bool × FSModel :=
  let fs1 := if (fs tmp).isSome then fsSet fs tmp none else fs
  match fs1 src with
  | none => (false, fs1)
  | some _ =>
    match f with
    | .raiseInCopy leftover => (false, fsSet fs1 tmp leftover)
    | .completeCopy n rOk =>
      let fs2 := fsSet fs1 tmp (some n)
      match fs2 src with
      | none => (false, fs2)
      | some sz2 =>
        if VERIFY_SIZE = true ∧ sz2 ≠ n then (false, fs2)
        else if rOk then (true, fsSet (fsSet fs2 tmp none) dst (some n))
        else (false, fs2)

/-- The retry loop `for attempt in range(1, RETRY_MAX + 1)`, with the sleeps
performed between attempts reported in order.  Fuel `RETRY_MAX` matches the
range; the fuel-exhausted branch mirrors the unreachable trailing
`return False`. -/
def copyAttempts (faults : Nat → CopyFault) (src dst tmp : PyPath) :
    Nat → Nat → FSModel → Bool × FSModel × List ℚ
  | 0, _, fs => (false, fs, [])
  | fuel + 1, attempt, fs =>
    let r := copyAttempt (faults attempt) src dst tmp fs
    if r.1 then (true, r.2, [])
    else if attempt < RETRY_MAX then
      let rest := copyAttempts faults src dst tmp fuel (attempt + 1) r.2
      (rest.1, rest.2.1, RETRY_BACKOFF_BASE * (attempt : ℚ) :: rest.2.2)
    else
      (false, (if (r.2 tmp).isSome then fsSet r.2 tmp none else r.2), [])

/-- `safe_copy2_atomic(src, dst_final)`: success flag, final filesystem, and
the backoff sleeps performed. -/
def safe_copy2_atomic (faults : Nat → CopyFault) (fs : FSModel) (src dst : PyPath) :
    Bool × FSModel × List ℚ :=
  copyAttempts faults src dst (tmpOf dst) RETRY_MAX 1 fs

/-- An attempt whose fault makes the loop body raise before returning. -/
def attemptFails (f : CopyFault) (sz : Nat) : Prop :=
  match f with
  | .raiseInCopy _ => True
  | .completeCopy n rOk => n ≠ sz ∨ rOk = false

/-! ### The worker of `App.run` (newapp.py lines 428-541)

One record of `list_all_b_files`: `(mode, stop, set_no, b_file)`; `b_file` is
embedded as its final name component.  The environment gives

* `aListing` — the contents of an A-side set folder, addressed by
  `(stop directory or the Single directory, set_no)`; both the worker's
  `a_set_path.is_dir()` and the builder's early-return read the same address
  (the directory tree does not change during a run);
* `copyOk i` — the boolean outcome of `safe_copy2_atomic` for record `i`
  (the function absorbs its own exceptions and only reports a flag);
* `mkdirRaises i` — an OS error raised by `out_dir.mkdir` at record `i`;
  this call is inside the worker's `try` block, which has no `except`, so
  such an error aborts the loop (only `finally` runs);
* `manifestMkdirRaises` / `manifestWriteOk` — the same for
  `manifest_dir.mkdir` and for the guarded `open`/write of the manifest.

The UI message queue and the post-hoc `OK` existence warning only produce
status strings and are not modelled. -/

/-- `(mode, stop, set_no)` plus the file name of one record. -/
structure BRec where
  mode : String
  stop : Option String
  set_no : String
  fname : String
deriving DecidableEq

/-- The cache key `("single", None, set_no)` / `("multi", stop, set_no)`. -/
abbrev CacheKey := String × Option String × String

/-- Address of the A-side set folder: `none` for the resolved Single
directory, `some stopdir` for `a_date / (stop or "0000")`. -/
abbrev ASetAddr := Option String × String

structure WEnv where
  aListing : ASetAddr → Option (List String)
  copyOk : Nat → Bool
  mkdirRaises : Nat → Bool
  manifestMkdirRaises : Bool
  manifestWriteOk : Bool

structure WStats where
  total : Nat
  processed : Nat
  copied_ok : Nat
  skipped : Nat
  skip_no_num : Nat
  skip_no_hm : Nat
  skip_no_setdir : Nat
  skip_empty_set : Nat
  copy_errors : Nat
  done : Bool
deriving DecidableEq

structure WState where
  stats : WStats
  hm_cache : List (CacheKey × HMMap)
  created_dirs : List String
  outFS : List PyPath
  rows : List (String × String × String × String)
  buildLog : List CacheKey
  escaped : Bool
  manifestWritten : Bool
deriving DecidableEq

def keyOfRec (r : BRec) : CacheKey :=
  if r.mode = "single" then ("single", none, r.set_no) else ("multi", r.stop, r.set_no)

/-- The set-folder address determined by a cache key; `keyOfRec` then
`addrOfKey` computes exactly the worker's `a_set_path` for the record. -/
def addrOfKey (k : CacheKey) : ASetAddr :=
  if k.1 = "single" then (none, k.2.2) else (some (k.2.1.getD "0000"), k.2.2)

/-- `reason = "empty_set" + (":" + ";".join(sample) if sample else "")` with
up to three sampled file names. -/
def emptySetReason (listing : List String) : String :=
  let sample := listing.take 3
  "empty_set" ++ (if sample.isEmpty then "" else ":" ++ String.intercalate ";" sample)

/-- `f"{stop}"` renders `None` as Python does. -/
def pyFmtOpt : Option String → String
  | some s => s
  | none => "None"

/-- The composed output file name (newapp.py lines 491-495). -/
def worker_new_name (mode yymmdd : String) (stop : Option String)
    (set_no base hm nn ext : String) : String :=
  if mode = "single" then
    yymmdd ++ "-" ++ set_no ++ "-" ++ base ++ "_" ++ hm ++ "_" ++ nn ++ ext
  else
    yymmdd ++ "-" ++ pyFmtOpt stop ++ "-" ++ set_no ++ "-" ++ base ++ "_" ++ hm ++ "_" ++ nn ++ ext

/-- `out_dir = out_root / yymmdd / nn` (newapp.py line 497). -/
def worker_out_dir (out_root yymmdd nn : String) : String :=
  out_root ++ "/" ++ yymmdd ++ "/" ++ nn

/-- The tail of one loop body after `out_dir` exists: unique destination,
transfer, counters and manifest row. -/
def processCopy (env : WEnv) (i : Nat) (fname new_name out_dir : String) (st : WState) : WState :=
  let dest := ensure_unique_total st.outFS { dir := out_dir, name := new_name }
  if env.copyOk i then
    { st with
      stats := { st.stats with copied_ok := st.stats.copied_ok + 1,
                               processed := st.stats.processed + 1 }
      rows := st.rows ++ [(fname, pyPathStr dest, "OK", "")]
      outFS := dest :: st.outFS }
  else
    { st with
      stats := { st.stats with skipped := st.stats.skipped + 1,
                               copy_errors := st.stats.copy_errors + 1,
                               processed := st.stats.processed + 1 }
      rows := st.rows ++ [(fname, pyPathStr dest, "ERROR", "copy_failed")] }

/-- One body of the worker's `for` loop. -/
def processRecord (env : WEnv) (yymmdd out_root : String) (i : Nat) (r : BRec)
    (st : WState) : WState :=
  match parse_b_file_num_and_base r.fname with
  | none =>
    { st with
      stats := { st.stats with skipped := st.stats.skipped + 1,
                               skip_no_num := st.stats.skip_no_num + 1,
                               processed := st.stats.processed + 1 }
      rows := st.rows ++ [(r.fname, "", "SKIP", "no_number")] }
  | some (nn, base, ext) =>
    let key := keyOfRec r
    let addr := addrOfKey key
    let exists_set := (env.aListing addr).isSome
    let cached := st.hm_cache.lookup key
    let mapping := match cached with
      | some m => m
      | none => build_hm_index_for_set (env.aListing addr)
    let st1 := match cached with
      | some _ => st
      | none =>
        { st with hm_cache := pyDictInsert st.hm_cache key mapping,
                  buildLog := st.buildLog ++ [key] }
    let hm? := if mapping.isEmpty then none else mapping.lookup nn
    match hm? with
    | none =>
      if exists_set = false then
        { st1 with
          stats := { st1.stats with skipped := st1.stats.skipped + 1,
                                    skip_no_setdir := st1.stats.skip_no_setdir + 1,
                                    processed := st1.stats.processed + 1 }
          rows := st1.rows ++ [(r.fname, "", "SKIP", "no_set_dir")] }
      else if mapping.isEmpty then
        { st1 with
          stats := { st1.stats with skipped := st1.stats.skipped + 1,
                                    skip_empty_set := st1.stats.skip_empty_set + 1,
                                    processed := st1.stats.processed + 1 }
          rows := st1.rows ++
            [(r.fname, "", "SKIP", emptySetReason ((env.aListing addr).getD []))] }
      else
        { st1 with
          stats := { st1.stats with skipped := st1.stats.skipped + 1,
                                    skip_no_hm := st1.stats.skip_no_hm + 1,
                                    processed := st1.stats.processed + 1 }
          rows := st1.rows ++ [(r.fname, "", "SKIP", "no_HM")] }
    | some hm =>
      let new_name := worker_new_name r.mode yymmdd r.stop r.set_no base hm nn ext
      let out_dir := worker_out_dir out_root yymmdd nn
      if out_dir ∈ st1.created_dirs then
        processCopy env i r.fname new_name out_dir st1
      else if env.mkdirRaises i then
        { st1 with escaped := true }
      else
        processCopy env i r.fname new_name out_dir
          { st1 with created_dirs := out_dir :: st1.created_dirs }

/-- The worker's `for` loop; an escaped exception aborts it. -/
def workerLoop (env : WEnv) (yymmdd out_root : String) :
    List BRec → Nat → WState → WState
  | [], _, st => st
  | r :: rs, i, st =>
    let st1 := processRecord env yymmdd out_root i r st
    if st1.escaped then st1 else workerLoop env yymmdd out_root rs (i + 1) st1

def initState (outFS0 : List PyPath) (records : List BRec) : WState :=
  { stats := { total := records.length, processed := 0, copied_ok := 0, skipped := 0,
               skip_no_num := 0, skip_no_hm := 0, skip_no_setdir := 0,
               skip_empty_set := 0, copy_errors := 0, done := false },
    hm_cache := [], created_dirs := [], outFS := outFS0, rows := [],
    buildLog := [], escaped := false, manifestWritten := false }

/-- The manifest block after the loop: `manifest_dir.mkdir` is unguarded, the
write itself is wrapped in `try/except`. -/
def manifestPhase (env : WEnv) (st : WState) : WState :=
  if env.manifestMkdirRaises then { st with escaped := true }
  else { st with manifestWritten := env.manifestWriteOk }

/-- The whole worker: loop, manifest block, and the `finally` that always sets
the shared `done` flag. -/
def worker (env : WEnv) (yymmdd out_root : String) (outFS0 : List PyPath)
    (records : List BRec) : WState :=
  let st := workerLoop env yymmdd out_root records 1 (initState outFS0 records)
  let st2 := if st.escaped then st else manifestPhase env st
  { st2 with stats := { st2.stats with done := true } }

/-! ### The worker of `newapp3.py` (lines 283-304)

That variant differs from `newapp.py`'s worker in three ways that matter here:
it has no `hm_cache` (`build_hm_index_for_set` runs for every record whose
name parses, line 291, and `hm` is read without the emptiness test), its loop
body is not wrapped in `try`/`finally` (line 304 sets `done` only when the
loop returns normally, so an escaped exception leaves `done` unset), and it
keeps no manifest rows and writes no manifest file at all.  Its stats dict
(line 282) holds only `total/processed/copied_ok/skipped/done`.

`newapp3BuildLog` is the sequence of builder invocations, logged by the
set-folder address.  `newapp3Worker` is the whole loop; `transferOk i` is the
outcome of record `i`'s transfer — the guarded `rename` in rename mode or
`safe_copy2_atomic`'s flag in copy mode, both of which absorb their own
failures — and `mkdirRaises i` an OS error at the unguarded
`out_dir.mkdir`. -/

def newapp3AddrOf (r : BRec) : ASetAddr :=
  if r.mode = "single" then (none, r.set_no) else (some (r.stop.getD "0000"), r.set_no)

/-- The A-side set folders for which `newapp3.py`'s worker invokes
`build_hm_index_for_set`, in order. -/
def newapp3BuildLog : List BRec → List ASetAddr
  | [] => []
  | r :: rs =>
    match parse_b_file_num_and_base r.fname with
    | none => newapp3BuildLog rs
    | some _ => newapp3AddrOf r :: newapp3BuildLog rs

structure N3Env where
  aListing : ASetAddr → Option (List String)
  transferOk : Nat → Bool
  mkdirRaises : Nat → Bool

structure N3Stats where
  total : Nat
  processed : Nat
  copied_ok : Nat
  skipped : Nat
  done : Bool
deriving DecidableEq

structure N3State where
  stats : N3Stats
  outFS : List PyPath
  escaped : Bool
deriving DecidableEq

/-- One body of `newapp3.py`'s `for` loop (lines 284-303). -/
def newapp3ProcessRecord (env : N3Env) (yymmdd out_root : String) (i : Nat) (r : BRec)
    (st : N3State) : N3State :=
  match parse_b_file_num_and_base r.fname with
  | none =>
    { st with stats := { st.stats with skipped := st.stats.skipped + 1,
                                       processed := st.stats.processed + 1 } }
  | some (nn, base, ext) =>
    let mapping := build_hm_index_for_set (env.aListing (newapp3AddrOf r))
    match mapping.lookup nn with
    | none =>
      { st with stats := { st.stats with skipped := st.stats.skipped + 1,
                                         processed := st.stats.processed + 1 } }
    | some hm =>
      let new_name := worker_new_name r.mode yymmdd r.stop r.set_no base hm nn ext
      let out_dir := worker_out_dir out_root yymmdd nn
      if env.mkdirRaises i then { st with escaped := true }
      else
        let dest := ensure_unique_total st.outFS { dir := out_dir, name := new_name }
        if env.transferOk i then
          { st with stats := { st.stats with copied_ok := st.stats.copied_ok + 1,
                                             processed := st.stats.processed + 1 }
                    outFS := dest :: st.outFS }
        else
          { st with stats := { st.stats with skipped := st.stats.skipped + 1,
                                             processed := st.stats.processed + 1 } }

/-- `newapp3.py`'s `for` loop; an escaped exception aborts it. -/
def newapp3Loop (env : N3Env) (yymmdd out_root : String) :
    List BRec → Nat → N3State → N3State
  | [], _, st => st
  | r :: rs, i, st =>
    let st1 := newapp3ProcessRecord env yymmdd out_root i r st
    if st1.escaped then st1 else newapp3Loop env yymmdd out_root rs (i + 1) st1

def newapp3InitState (outFS0 : List PyPath) (records : List BRec) : N3State :=
  { stats := { total := records.length, processed := 0, copied_ok := 0,
               skipped := 0, done := false },
    outFS := outFS0, escaped := false }

/-- The whole `newapp3.py` worker: no `try`/`finally`, so line 304's
`done := true` runs only when the loop returns normally; no manifest block
exists. -/
def newapp3Worker (env : N3Env) (yymmdd out_root : String) (outFS0 : List PyPath)
    (records : List BRec) : N3State :=
  let st := newapp3Loop env yymmdd out_root records 1 (newapp3InitState outFS0 records)
  if st.escaped then st else { st with stats := { st.stats with done := true } }

/-- The counter relations the worker maintains: every record lands in exactly
one terminal bucket. -/
def statsInv (s : WStats) : Prop :=
  s.processed = s.copied_ok + s.skipped
  ∧ s.skipped = s.skip_no_num + s.skip_no_hm + s.skip_no_setdir
      + s.skip_empty_set + s.copy_errors

/-- The spec's end-to-end scenario (§8): two Single B files and an A set
folder holding a High file for index 01 and a Middle file for index 02. -/
def e2eEnv : WEnv :=
  { aListing := fun a =>
      if a = (none, "0001") then some ["raw_High_01.jpg", "raw_Middle_02.jpg"] else none,
    copyOk := fun _ => true,
    mkdirRaises := fun _ => false,
    manifestMkdirRaises := false,
    manifestWriteOk := true }

def e2eRecords : List BRec :=
  [{ mode := "single", stop := none, set_no := "0001", fname := "lumi_01.jpg" },
   { mode := "single", stop := none, set_no := "0001", fname := "lumi_02.jpg" }]

/-! ## Supporting lemmas -/

theorem stringMk_data (s : String) : (⟨s.data⟩ : String) = s := by cases s; rfl

theorem pyStem_data_append_pySuffix (name : String) :
    (pyStem name).data ++ (pySuffix name).data = name.data := by
  unfold pyStem pySuffix
  cases pySplitIdx name.data with
  | none => simp
  | some i => simp [List.take_append_drop]

theorem option_any_eq_true {α : Type} {p : α → Bool} {o : Option α} :
    o.any p = true ↔ ∃ a, o = some a ∧ p a = true := by
  cases o <;> simp [Option.any]

theorem head?_dropWhile {α : Type} {p : α → Bool} {l : List α} {a : α}
    (h : (l.dropWhile p).head? = some a) : p a = false := by
  induction l with
  | nil => simp [List.dropWhile] at h
  | cons x xs ih =>
    rw [List.dropWhile_cons] at h
    by_cases hx : p x = true
    · exact ih (by simpa [hx] using h)
    · simp only [hx, if_neg, Bool.false_eq_true, not_false_iff, if_false] at h
      simp only [List.head?_cons, Option.some.injEq] at h
      subst h
      simpa using hx

theorem rstripUnderscores_getLast? (l : List Char) :
    (rstripUnderscores l).getLast? ≠ some '_' := by
  intro h
  unfold rstripUnderscores at h
  rw [List.getLast?_reverse] at h
  have := head?_dropWhile h
  simp at this

theorem rstripUnderscores_append_underscore (l : List Char) :
    rstripUnderscores (l ++ ['_']) = rstripUnderscores l := by
  unfold rstripUnderscores
  simp [List.dropWhile_cons]

/-! ### Characterization of the B-side parser -/

theorem no_digit_after {l : List Char} {s j : Nat} {c : Char}
    (hall : (l.drop (s + 2)).all (fun c => !c.isDigit) = true)
    (hj : s + 2 ≤ j) (hc : l[j]? = some c) : c.isDigit = false := by
  have hdrop : (l.drop (s + 2))[j - (s + 2)]? = some c := by
    rw [List.getElem?_drop]
    rwa [show s + 2 + (j - (s + 2)) = j by omega]
  have hmem : c ∈ l.drop (s + 2) := List.getElem?_mem hdrop
  have := List.all_eq_true.mp hall c hmem
  simpa using this

theorem nnCondAt_digit_at {l : List Char} {s : Nat} (h : nnCondAt l s = true) :
    ∃ c0 c1, l[s]? = some c0 ∧ c0.isDigit = true ∧ l[s + 1]? = some c1 ∧ c1.isDigit = true := by
  unfold nnCondAt at h
  simp only [Bool.and_eq_true] at h
  obtain ⟨⟨⟨_, h1⟩, h2⟩, _⟩ := h
  obtain ⟨c0, hc0, hd0⟩ := option_any_eq_true.mp h1
  obtain ⟨c1, hc1, hd1⟩ := option_any_eq_true.mp h2
  exact ⟨c0, c1, hc0, hd0, hc1, hd1⟩

theorem nnCondAt_all_after {l : List Char} {s : Nat} (h : nnCondAt l s = true) :
    (l.drop (s + 2)).all (fun c => !c.isDigit) = true := by
  unfold nnCondAt at h
  simp only [Bool.and_eq_true] at h
  exact h.2

/-- The `IMG_NUM_RE` group position is unique when it exists. -/
theorem nnCondAt_unique {l : List Char} {s t : Nat}
    (hs : nnCondAt l s = true) (ht : nnCondAt l t = true) : s = t := by
  rcases Nat.lt_trichotomy s t with hlt | heq | hgt
  · exfalso
    obtain ⟨c0, c1, hc0, hd0, hc1, hd1⟩ := nnCondAt_digit_at ht
    have hall := nnCondAt_all_after hs
    by_cases h2 : s + 2 ≤ t
    · exact absurd hd0 (by simp [no_digit_after hall h2 hc0])
    · have : t = s + 1 := by omega
      subst this
      exact absurd hd1 (by simp [no_digit_after hall (by omega) hc1])
  · exact heq
  · exfalso
    obtain ⟨c0, c1, hc0, hd0, hc1, hd1⟩ := nnCondAt_digit_at hs
    have hall := nnCondAt_all_after ht
    by_cases h2 : t + 2 ≤ s
    · exact absurd hd0 (by simp [no_digit_after hall h2 hc0])
    · have : s = t + 1 := by omega
      subst this
      exact absurd hd1 (by simp [no_digit_after hall (by omega) hc1])

theorem findNNStart_eq_some {l : List Char} {s : Nat} :
    findNNStart l = some s ↔ nnCondAt l s = true := by
  constructor
  · intro h
    exact List.find?_some h
  · intro h
    obtain ⟨c0, c1, hc0, _, _, _⟩ := nnCondAt_digit_at h
    have hslen : s < l.length := by
      obtain ⟨hlt, _⟩ := List.getElem?_eq_some.mp hc0
      exact hlt
    cases hfind : findNNStart l with
    | none =>
      exfalso
      unfold findNNStart at hfind
      exact absurd h (by simpa using List.find?_eq_none.mp hfind s (List.mem_range.mpr hslen))
    | some t =>
      have := List.find?_some hfind
      rw [nnCondAt_unique this h]

/-- The source's two-branch `base` slice equals stripping trailing
underscores from everything before the group. -/
theorem parse_base_eq {l : List Char} {s : Nat} :
    rstripUnderscores (if 0 < s ∧ l[s - 1]? = some '_' then l.take (s - 1) else l.take s)
      = rstripUnderscores (l.take s) := by
  by_cases hs : 0 < s ∧ l[s - 1]? = some '_'
  · rw [if_pos hs]
    obtain ⟨hpos, hund⟩ := hs
    have hlen : s - 1 < l.length := (List.getElem?_eq_some.mp hund).1
    have : l.take s = l.take (s - 1) ++ ['_'] := by
      have hstep : l.take ((s - 1) + 1) = l.take (s - 1) ++ l[s - 1]?.toList := List.take_succ
      rw [show (s - 1) + 1 = s by omega] at hstep
      rw [hstep, hund]
      rfl
    rw [this, rstripUnderscores_append_underscore]
  · rw [if_neg hs]

/-! ## Claim C4 -/

/-- C4.  `parseIndexAndBase` succeeds exactly when the stem has a 2-digit run
anchored at the start or right after an underscore with no further digit
before the end of the stem (`nnCondAt`); it returns that run as the index,
everything before it with the trailing separator(s) stripped as the base, and
the original extension with its dot; `lumi_13.jpg` parses as
`("13", "lumi", ".jpg")` and `noindex.jpg` fails. -/
theorem parse_b_characterization :
    (∀ (name nn base ext : String),
        parse_b_file_num_and_base name = some (nn, base, ext) ↔
          ∃ s, nnCondAt (pyStem name).data s = true ∧
            nn = ⟨((pyStem name).data.drop s).take 2⟩ ∧
            base = ⟨rstripUnderscores ((pyStem name).data.take s)⟩ ∧
            ext = pySuffix name)
    ∧ parse_b_file_num_and_base "lumi_13.jpg" = some ("13", "lumi", ".jpg")
    ∧ parse_b_file_num_and_base "noindex.jpg" = none := by
  refine ⟨?_, by decide, by decide⟩
  intro name nn base ext
  simp only [parse_b_file_num_and_base]
  constructor
  · intro h
    cases hf : findNNStart (pyStem name).data with
    | none => rw [hf] at h; exact absurd h (by simp)
    | some s =>
      rw [hf] at h
      simp only [Option.some.injEq, Prod.mk.injEq] at h
      obtain ⟨hnn, hbase, hext⟩ := h
      refine ⟨s, findNNStart_eq_some.mp hf, hnn.symm, ?_, hext.symm⟩
      rw [← hbase]
      exact congrArg String.mk parse_base_eq
  · rintro ⟨s, hc, hnn, hbase, hext⟩
    rw [findNNStart_eq_some.mpr hc]
    rw [hnn, hbase, hext]
    exact congrArg (fun b => some (_, (⟨b⟩ : String), _)) parse_base_eq

/-! ## Claim C10 -/

/-- C10.  A B-file whose stem is exactly a 2-digit run parses successfully
with an empty base (so the record is composed with an empty base segment,
e.g. `250527-0001-_H_13.jpg`), and more generally a returned base never ends
in an underscore since every trailing underscore is stripped. -/
theorem parse_b_two_digit_stem :
    (∀ name : String, (pyStem name).data.length = 2 →
        (pyStem name).data.all Char.isDigit = true →
        parse_b_file_num_and_base name = some (pyStem name, "", pySuffix name))
    ∧ (∀ name nn base ext : String,
        parse_b_file_num_and_base name = some (nn, base, ext) →
        base.data.getLast? ≠ some '_')
    ∧ parse_b_file_num_and_base "13.jpg" = some ("13", "", ".jpg")
    ∧ worker_new_name "single" "250527" none "0001" "" "H" "13" ".jpg"
        = "250527-0001-_H_13.jpg" := by
  refine ⟨?_, ?_, by decide, by decide⟩
  · intro name hlen hdig
    obtain ⟨a, b, hab⟩ := List.length_eq_two.mp hlen
    have hda : a.isDigit = true := by
      have := List.all_eq_true.mp hdig a (by rw [hab]; simp)
      simpa using this
    have hdb : b.isDigit = true := by
      have := List.all_eq_true.mp hdig b (by rw [hab]; simp)
      simpa using this
    have hc : nnCondAt (pyStem name).data 0 = true := by
      rw [hab]
      unfold nnCondAt
      simp [hda, hdb, Option.any]
    simp only [parse_b_file_num_and_base]
    rw [findNNStart_eq_some.mpr hc]
    simp only [Nat.lt_irrefl, false_and, if_neg, not_false_iff]
    rw [hab]
    have : (⟨[a, b]⟩ : String) = pyStem name := by rw [← hab]
    simp [this, rstripUnderscores]
  · intro name nn base ext h
    simp only [parse_b_file_num_and_base] at h
    cases hf : findNNStart (pyStem name).data with
    | none => rw [hf] at h; exact absurd h (by simp)
    | some s =>
      rw [hf] at h
      simp only [Option.some.injEq, Prod.mk.injEq] at h
      rw [← h.2.1]
      exact rstripUnderscores_getLast? _

/-! ## Claim C2 -/

theorem lookup_cons_self {α β : Type} [BEq α] [LawfulBEq α] (k : α) (v : β)
    (m : List (α × β)) : ((k, v) :: m).lookup k = some v := by
  rw [List.lookup_cons]
  have : (k == k) = true := by simp
  rw [this]

theorem lookup_cons_ne {α β : Type} [BEq α] [LawfulBEq α] {k1 k2 : α} (v1 : β)
    (m : List (α × β)) (h : k2 ≠ k1) : ((k1, v1) :: m).lookup k2 = m.lookup k2 := by
  rw [List.lookup_cons]
  have : (k2 == k1) = false := by simpa using h
  rw [this]

theorem lookup_pyDictInsert_self {α β : Type} [BEq α] [LawfulBEq α]
    (m : List (α × β)) (k : α) (v : β) : (pyDictInsert m k v).lookup k = some v := by
  unfold pyDictInsert
  by_cases h : (m.lookup k).isSome
  · rw [if_pos h]
    induction m with
    | nil => simp [List.lookup] at h
    | cons p m ih =>
      obtain ⟨k1, v1⟩ := p
      by_cases hk : k1 = k
      · subst hk
        simp only [List.map_cons]
        rw [if_pos (by simp)]
        exact lookup_cons_self k1 v _
      · simp only [List.map_cons]
        rw [if_neg (by simpa using hk)]
        rw [lookup_cons_ne v1 _ (Ne.symm hk)]
        rw [lookup_cons_ne v1 _ (Ne.symm hk)] at h
        exact ih h
  · rw [if_neg h]
    induction m with
    | nil => exact lookup_cons_self k v []
    | cons p m ih =>
      obtain ⟨k1, v1⟩ := p
      by_cases hk : k = k1
      · subst hk
        rw [lookup_cons_self] at h
        simp at h
      · rw [lookup_cons_ne v1 _ hk] at h
        rw [List.cons_append, lookup_cons_ne v1 _ hk]
        exact ih h

theorem lookup_pyDictInsert_ne {α β : Type} [BEq α] [LawfulBEq α]
    (m : List (α × β)) (k k' : α) (v : β) (h : k' ≠ k) :
    (pyDictInsert m k v).lookup k' = m.lookup k' := by
  unfold pyDictInsert
  by_cases hs : (m.lookup k).isSome
  · rw [if_pos hs]
    clear hs
    induction m with
    | nil => simp
    | cons p m ih =>
      obtain ⟨k1, v1⟩ := p
      simp only [List.map_cons]
      by_cases hk : k1 = k
      · subst hk
        rw [if_pos (by simp)]
        rw [lookup_cons_ne v _ h, lookup_cons_ne v1 _ h]
        exact ih
      · rw [if_neg (by simpa using hk)]
        by_cases he : k' = k1
        · subst he
          rw [lookup_cons_self, lookup_cons_self]
        · rw [lookup_cons_ne v1 _ he, lookup_cons_ne v1 _ he]
          exact ih
  · rw [if_neg hs]
    clear hs
    induction m with
    | nil =>
      rw [List.nil_append, lookup_cons_ne v _ h]
    | cons p m ih =>
      obtain ⟨k1, v1⟩ := p
      rw [List.cons_append]
      by_cases he : k' = k1
      · subst he
        rw [lookup_cons_self, lookup_cons_self]
      · rw [lookup_cons_ne v1 _ he, lookup_cons_ne v1 _ he]
        exact ih

theorem hmVal_val {tok v : String} (h : hmVal tok = some v) : v = "H" ∨ v = "M" := by
  unfold hmVal at h
  split_ifs at h <;> simp_all

theorem deriveEntry_val {f nn v : String} (h : deriveEntry f = some (nn, v)) :
    v = "H" ∨ v = "M" := by
  cases hnn : deriveNN f with
  | none => simp [deriveEntry, hnn] at h
  | some nn0 =>
    cases htok : hmFirstToken f.data with
    | none => simp [deriveEntry, hnn, htok] at h
    | some tok =>
      cases hval : hmVal tok with
      | none => simp [deriveEntry, hnn, htok, hval] at h
      | some v0 =>
        simp only [deriveEntry, hnn, htok, hval, Option.some.injEq, Prod.mk.injEq] at h
        rw [← h.2]
        exact hmVal_val hval

/-- Whether some file of the listing yields tag `v` at index `k`. -/
def hasTag (l : List String) (k v : String) : Bool :=
  l.any (fun f => deriveEntry f == some (k, v))

/-- Characterization of the scan fold: High always wins, Middle fills gaps. -/
theorem lookup_foldl_hmStep (l : List String) (m : HMMap) (k : String) :
    (l.foldl hmStep m).lookup k =
      if hasTag l k "H" then some "H"
      else if (m.lookup k).isSome then m.lookup k
      else if hasTag l k "M" then some "M"
      else none := by
  induction l generalizing m with
  | nil =>
    simp only [List.foldl_nil, hasTag, List.any_nil, Bool.false_eq_true, if_neg,
      not_false_iff]
    cases hm : m.lookup k <;> simp
  | cons f l ih =>
    rw [List.foldl_cons, ih (hmStep m f)]
    cases hd : deriveEntry f with
    | none =>
      have hh : hasTag (f :: l) k "H" = hasTag l k "H" := by
        simp [hasTag, List.any_cons, hd]
      have hm : hasTag (f :: l) k "M" = hasTag l k "M" := by
        simp [hasTag, List.any_cons, hd]
      have hstep : hmStep m f = m := by simp [hmStep, hd]
      rw [hh, hm, hstep]
    | some e =>
      obtain ⟨nn, v⟩ := e
      have hstep : hmStep m f = hmUpdate m nn v := by simp [hmStep, hd]
      rw [hstep]
      by_cases hk : nn = k
      · subst hk
        rcases deriveEntry_val hd with hv | hv
        · subst hv
          have hh : hasTag (f :: l) nn "H" = true := by
            simp [hasTag, List.any_cons, hd]
          have hupd : (hmUpdate m nn "H").lookup nn = some "H" := by
            unfold hmUpdate
            rw [if_pos (by simp)]
            exact lookup_pyDictInsert_self m nn "H"
          rw [hh, hupd]
          simp only [if_pos, Option.isSome_some, if_true]
          by_cases hH : hasTag l nn "H" = true <;> simp [hH]
        · subst hv
          have hh : hasTag (f :: l) nn "H" = hasTag l nn "H" := by
            simp [hasTag, List.any_cons, hd]
          have hm2 : hasTag (f :: l) nn "M" = true := by
            simp [hasTag, List.any_cons, hd]
          rw [hh, hm2]
          cases hml : m.lookup nn with
          | none =>
            have hupd : hmUpdate m nn "M" = pyDictInsert m nn "M" := by
              unfold hmUpdate
              rw [if_pos (by simp [hml])]
            rw [hupd, lookup_pyDictInsert_self m nn "M"]
            simp
          | some w =>
            have hupd : hmUpdate m nn "M" = m := by
              unfold hmUpdate
              rw [if_neg (by simp [hml])]
            rw [hupd, hml]
            simp
      · have hh : hasTag (f :: l) k "H" = hasTag l k "H" := by
          simp only [hasTag, List.any_cons, hd]
          have : (some (nn, v) == some (k, "H")) = false := by
            simp [hk]
          rw [this]
          simp
        have hm2 : hasTag (f :: l) k "M" = hasTag l k "M" := by
          simp only [hasTag, List.any_cons, hd]
          have : (some (nn, v) == some (k, "M")) = false := by
            simp [hk]
          rw [this]
          simp
        have hlk : (hmUpdate m nn v).lookup k = m.lookup k := by
          unfold hmUpdate
          split_ifs with hc
          · exact lookup_pyDictInsert_ne m nn k v (Ne.symm hk)
          · rfl
        rw [hh, hm2, hlk]

/-- C2.  `buildQualityIndex` is independent of directory iteration order:
permuting the listing never changes any lookup, an index maps to `H` exactly
when some file derives `(index, H)` (so High wins every collision), inserting
`H` always lands, and inserting `M` over any present entry is a no-op (so `M`
never overwrites `H` and a second `M` changes nothing); determinism on an
unchanged listing is definitional. -/
theorem build_hm_index_order_independent :
    (∀ (l1 l2 : List String), l1.Perm l2 →
        ∀ k, (build_hm_index_for_set (some l1)).lookup k
          = (build_hm_index_for_set (some l2)).lookup k)
    ∧ (∀ (l : List String) (k : String),
        (build_hm_index_for_set (some l)).lookup k = some "H" ↔
          ∃ f ∈ l, deriveEntry f = some (k, "H"))
    ∧ (∀ (l : List String) (k : String),
        (build_hm_index_for_set (some l)).lookup k = some "M" ↔
          (∃ f ∈ l, deriveEntry f = some (k, "M")) ∧
            ¬∃ f ∈ l, deriveEntry f = some (k, "H"))
    ∧ (∀ (m : HMMap) (k : String), (hmUpdate m k "H").lookup k = some "H")
    ∧ (∀ (m : HMMap) (k : String), (m.lookup k).isSome = true → hmUpdate m k "M" = m) := by
  have hchar : ∀ (l : List String) (k : String),
      (build_hm_index_for_set (some l)).lookup k =
        if hasTag l k "H" then some "H"
        else if hasTag l k "M" then some "M"
        else none := by
    intro l k
    show ((l.foldl hmStep []).lookup k) = _
    rw [lookup_foldl_hmStep]
    simp [List.lookup]
  have htag : ∀ (l : List String) (k v : String),
      hasTag l k v = true ↔ ∃ f ∈ l, deriveEntry f = some (k, v) := by
    intro l k v
    unfold hasTag
    rw [List.any_eq_true]
    constructor
    · rintro ⟨f, hf, he⟩
      exact ⟨f, hf, by simpa using he⟩
    · rintro ⟨f, hf, he⟩
      exact ⟨f, hf, by simpa using he⟩
  refine ⟨?_, ?_, ?_, ?_, ?_⟩
  · intro l1 l2 hperm k
    rw [hchar, hchar]
    have hH : hasTag l1 k "H" = hasTag l2 k "H" := by
      by_cases h1 : hasTag l1 k "H" = true
      · obtain ⟨f, hf, he⟩ := (htag l1 k "H").mp h1
        rw [h1, ((htag l2 k "H").mpr ⟨f, hperm.mem_iff.mp hf, he⟩)]
      · by_cases h2 : hasTag l2 k "H" = true
        · obtain ⟨f, hf, he⟩ := (htag l2 k "H").mp h2
          exact absurd ((htag l1 k "H").mpr ⟨f, hperm.mem_iff.mpr hf, he⟩) h1
        · simp only [Bool.not_eq_true] at h1 h2
          rw [h1, h2]
    have hM : hasTag l1 k "M" = hasTag l2 k "M" := by
      by_cases h1 : hasTag l1 k "M" = true
      · obtain ⟨f, hf, he⟩ := (htag l1 k "M").mp h1
        rw [h1, ((htag l2 k "M").mpr ⟨f, hperm.mem_iff.mp hf, he⟩)]
      · by_cases h2 : hasTag l2 k "M" = true
        · obtain ⟨f, hf, he⟩ := (htag l2 k "M").mp h2
          exact absurd ((htag l1 k "M").mpr ⟨f, hperm.mem_iff.mpr hf, he⟩) h1
        · simp only [Bool.not_eq_true] at h1 h2
          rw [h1, h2]
    rw [hH, hM]
  · intro l k
    rw [hchar, ← htag]
    by_cases hH : hasTag l k "H" = true
    · simp [hH]
    · simp only [Bool.not_eq_true] at hH
      rw [hH]
      by_cases hM : hasTag l k "M" = true <;> simp [hM]
  · intro l k
    rw [hchar, ← htag, ← htag]
    by_cases hH : hasTag l k "H" = true
    · simp [hH]
    · simp only [Bool.not_eq_true] at hH
      rw [hH]
      by_cases hM : hasTag l k "M" = true <;> simp [hM, hH]
  · intro m k
    unfold hmUpdate
    rw [if_pos (by simp)]
    exact lookup_pyDictInsert_self m k "H"
  · intro m k h
    unfold hmUpdate
    rw [if_neg (by simp_all)]

theorem build_hm_index_order_independent_witness :
    (["img_middle_07.jpg", "img_high_07.jpg"] : List String).Perm
        ["img_high_07.jpg", "img_middle_07.jpg"]
    ∧ (build_hm_index_for_set (some ["img_middle_07.jpg", "img_high_07.jpg"])).lookup "07"
        = (build_hm_index_for_set (some ["img_high_07.jpg", "img_middle_07.jpg"])).lookup "07" :=
  ⟨List.Perm.swap _ _ _,
    build_hm_index_order_independent.1 _ _ (List.Perm.swap _ _ _) "07"⟩

/-! ## Claim C3 -/

theorem strLeB_refl (l : List Char) : strLeB l l = true := by
  induction l with
  | nil => rfl
  | cons x xs ih => simp [strLeB, ih]

theorem strLeB_total (a b : List Char) : strLeB a b = true ∨ strLeB b a = true := by
  induction a generalizing b with
  | nil => exact Or.inl rfl
  | cons x xs ih =>
    cases b with
    | nil => exact Or.inr rfl
    | cons y ys =>
      by_cases hxy : x = y
      · subst hxy
        simpa [strLeB] using ih ys
      · rcases lt_or_gt_of_ne hxy with h | h
        · left
          simp [strLeB, hxy, h]
        · right
          simp [strLeB, Ne.symm hxy, h]

theorem strLeB_trans {a b c : List Char} (hab : strLeB a b = true)
    (hbc : strLeB b c = true) : strLeB a c = true := by
  induction a generalizing b c with
  | nil => rfl
  | cons x xs ih =>
    cases b with
    | nil => simp [strLeB] at hab
    | cons y ys =>
      cases c with
      | nil => simp [strLeB] at hbc
      | cons z zs =>
        by_cases hxy : x = y
        · subst hxy
          simp only [strLeB, if_pos rfl] at hab
          by_cases hyz : x = z
          · subst hyz
            simp only [strLeB, if_pos rfl] at hbc ⊢
            exact ih hab hbc
          · simp only [strLeB, if_neg hyz] at hbc ⊢
            exact hbc
        · simp only [strLeB, if_neg hxy] at hab
          have hxyl : x < y := of_decide_eq_true hab
          by_cases hyz : y = z
          · subst hyz
            simp only [strLeB, if_neg hxy]
            simpa using hxyl
          · simp only [strLeB, if_neg hyz] at hbc
            have hyzl : y < z := of_decide_eq_true hbc
            have hxz : x < z := lt_trans hxyl hyzl
            simp only [strLeB, if_neg (ne_of_lt hxz)]
            simpa using hxz

theorem strLeB_antisymm {a b : List Char} (hab : strLeB a b = true)
    (hba : strLeB b a = true) : a = b := by
  induction a generalizing b with
  | nil =>
    cases b with
    | nil => rfl
    | cons y ys => simp [strLeB] at hba
  | cons x xs ih =>
    cases b with
    | nil => simp [strLeB] at hab
    | cons y ys =>
      by_cases hxy : x = y
      · subst hxy
        simp only [strLeB, if_pos rfl] at hab hba
        rw [ih hab hba]
      · simp only [strLeB, if_neg hxy, if_neg (Ne.symm hxy)] at hab hba
        exact absurd (of_decide_eq_true hba) (not_lt_of_lt (of_decide_eq_true hab))

theorem stringData_inj {a b : String} (h : a.data = b.data) : a = b := by
  cases a
  cases b
  exact congrArg String.mk h

instance : IsTotal String pyStrLeProp :=
  ⟨fun a b => strLeB_total a.data b.data⟩

instance : IsTrans String pyStrLeProp :=
  ⟨fun _ _ _ hab hbc => strLeB_trans hab hbc⟩

theorem pyStrLe_refl (a : String) : pyStrLe a a = true := strLeB_refl a.data

theorem pyStrLe_antisymm {a b : String} (hab : pyStrLe a b = true)
    (hba : pyStrLe b a = true) : a = b :=
  stringData_inj (strLeB_antisymm hab hba)

theorem foldlMin_mem (xs : List String) (x : String) :
    xs.foldl (fun a b => if pyStrLe b a then b else a) x ∈ x :: xs := by
  induction xs generalizing x with
  | nil => simp
  | cons y ys ih =>
    rw [List.foldl_cons]
    have := ih (if pyStrLe y x then y else x)
    rcases List.mem_cons.mp this with h | h
    · rw [h]
      by_cases hc : pyStrLe y x = true <;> simp [hc]
    · simp [List.mem_cons.mpr (Or.inr (List.mem_cons.mpr (Or.inr h)))]

theorem foldlMin_le_start (xs : List String) (x : String) :
    pyStrLe (xs.foldl (fun a b => if pyStrLe b a then b else a) x) x = true := by
  induction xs generalizing x with
  | nil => exact pyStrLe_refl x
  | cons z zs ih =>
    rw [List.foldl_cons]
    have hstep : pyStrLe (if pyStrLe z x then z else x) x = true := by
      by_cases hc : pyStrLe z x = true <;> simp [hc, pyStrLe_refl]
    exact strLeB_trans (ih _) hstep

theorem foldlMin_le (xs : List String) (x : String) :
    ∀ y ∈ x :: xs, pyStrLe (xs.foldl (fun a b => if pyStrLe b a then b else a) x) y = true := by
  induction xs generalizing x with
  | nil =>
    intro y hy
    simp only [List.mem_singleton] at hy
    subst hy
    exact pyStrLe_refl _
  | cons z zs ih =>
    intro y hy
    rw [List.foldl_cons]
    have hstep_le_x : pyStrLe (if pyStrLe z x then z else x) x = true := by
      by_cases hc : pyStrLe z x = true <;> simp [hc, pyStrLe_refl]
    have hstep_le_z : pyStrLe (if pyStrLe z x then z else x) z = true := by
      by_cases hc : pyStrLe z x = true
      · simp [hc, pyStrLe_refl]
      · rcases strLeB_total x.data z.data with h | h
        · simpa [hc] using h
        · exact absurd h (by simpa using hc)
    rcases List.mem_cons.mp hy with rfl | hy2
    · exact strLeB_trans (foldlMin_le_start zs _) hstep_le_x
    · rcases List.mem_cons.mp hy2 with rfl | hy3
      · exact strLeB_trans (foldlMin_le_start zs _) hstep_le_z
      · exact ih _ y (List.mem_cons.mpr (Or.inr hy3))

theorem listMinStr_spec (l : List String) (h : l ≠ []) :
    ∃ m, listMinStr l = some m ∧ m ∈ l ∧ ∀ y ∈ l, pyStrLe m y = true := by
  cases l with
  | nil => exact absurd rfl h
  | cons x xs =>
    exact ⟨_, rfl, foldlMin_mem xs x, fun y hy => foldlMin_le xs x y hy⟩

theorem pySorted_head (l : List String) (h : l ≠ []) :
    (pySorted l).head? = listMinStr l := by
  obtain ⟨m, hm, hmem, hle⟩ := listMinStr_spec l h
  rw [hm]
  have hperm : (pySorted l).Perm l := List.perm_insertionSort pyStrLeProp l
  have hsorted : List.Sorted pyStrLeProp (pySorted l) :=
    List.sorted_insertionSort pyStrLeProp l
  cases hps : pySorted l with
  | nil =>
    exact absurd (hperm.symm.mem_iff.mp hmem) (by simp [hps])
  | cons h0 t =>
    rw [hps] at hperm hsorted
    have h0_le : ∀ y ∈ l, pyStrLe h0 y = true := by
      intro y hy
      rcases List.mem_cons.mp (hperm.mem_iff.mpr hy) with rfl | ht
      · exact pyStrLe_refl y
      · exact List.rel_of_sorted_cons hsorted y ht
    have h0_mem : h0 ∈ l := hperm.mem_iff.mp (List.mem_cons_self _ _)
    have : h0 = m := pyStrLe_antisymm (h0_le m hmem) (hle h0 h0_mem)
    simp [this]

/-- C3.  `findDateFolder` considers exactly the immediate subdirectories whose
names contain at least six digits ending in the run key, preferring a folder
named exactly the run key, then the lexicographically smallest eight-digit
match, then the lexicographically smallest remaining match, and returns `none`
exactly when no candidate matches; on the spec's example it picks `250527`. -/
theorem find_a_date_dir_spec :
    (∀ (names : List String) (target : String),
        find_a_date_dir names target = findDateFolderSpec names target)
    ∧ (∀ (names : List String) (target : String),
        find_a_date_dir names target = none ↔ ∀ n ∈ names, candMatch target n = false)
    ∧ find_a_date_dir ["20250527_raw", "250527", "other_250527"] "250527"
        = some "250527" := by
  have spec_shape : ∀ (names : List String) (target : String),
      findDateFolderSpec names target =
        (if target ∈ names.filter (candMatch target) then some target
         else if ((names.filter (candMatch target)).filter (eightMatch target)).isEmpty
           then listMinStr (names.filter (candMatch target))
           else listMinStr ((names.filter (candMatch target)).filter (eightMatch target))) :=
    fun _ _ => rfl
  have main : ∀ (names : List String) (target : String),
      find_a_date_dir names target = findDateFolderSpec names target := by
    intro names target
    rw [spec_shape]
    show (if (names.filter (candMatch target)).isEmpty then none
          else if ((names.filter (candMatch target)).filter (fun n => n == target)).isEmpty
              = false
            then ((names.filter (candMatch target)).filter (fun n => n == target)).head?
            else if ((names.filter (candMatch target)).filter (eightMatch target)).isEmpty
                = false
              then (pySorted ((names.filter (candMatch target)).filter (eightMatch target))).head?
              else (pySorted (names.filter (candMatch target))).head?) = _
    by_cases hc : names.filter (candMatch target) = []
    · rw [if_pos (List.isEmpty_iff.mpr hc)]
      rw [if_neg (by rw [hc]; simp)]
      rw [if_pos (List.isEmpty_iff.mpr (by rw [hc]; rfl))]
      rw [hc]
      rfl
    · rw [if_neg (by simp [List.isEmpty_iff, hc])]
      by_cases hexact : target ∈ names.filter (candMatch target)
      · have hne : (names.filter (candMatch target)).filter (fun n => n == target) ≠ [] := by
          intro h0
          have := List.filter_eq_nil_iff.mp h0 target hexact
          simp at this
        rw [if_pos (List.isEmpty_eq_false.mpr hne)]
        rw [if_pos hexact]
        cases hf : (names.filter (candMatch target)).filter (fun n => n == target) with
        | nil => exact absurd hf hne
        | cons a t =>
          have ha : a ∈ (names.filter (candMatch target)).filter (fun n => n == target) := by
            rw [hf]
            exact List.mem_cons_self _ _
          have : a = target := by
            have := (List.mem_filter.mp ha).2
            simpa using this
          simp [this]
      · have hempty : (names.filter (candMatch target)).filter (fun n => n == target) = [] := by
          apply List.filter_eq_nil_iff.mpr
          intro a ha hbeq
          exact hexact (by rwa [show a = target from by simpa using hbeq] at ha)
        rw [if_neg (by simp [hempty])]
        rw [if_neg hexact]
        by_cases height : (names.filter (candMatch target)).filter (eightMatch target) = []
        · rw [if_neg (by simp [height])]
          rw [if_pos (List.isEmpty_iff.mpr height)]
          exact pySorted_head _ hc
        · rw [if_pos (List.isEmpty_eq_false.mpr height)]
          rw [if_neg (fun hh => height (List.isEmpty_iff.mp hh))]
          exact pySorted_head _ height
  refine ⟨main, ?_, by decide⟩
  intro names target
  rw [main names target, spec_shape]
  constructor
  · intro h
    by_contra hnot
    push_neg at hnot
    obtain ⟨n, hn, hcand⟩ := hnot
    have hmem : n ∈ names.filter (candMatch target) :=
      List.mem_filter.mpr ⟨hn, by simpa using hcand⟩
    have hne : names.filter (candMatch target) ≠ [] := by
      intro h0
      rw [h0] at hmem
      simp at hmem
    by_cases hexact : target ∈ names.filter (candMatch target)
    · rw [if_pos hexact] at h
      simp at h
    · rw [if_neg hexact] at h
      by_cases height : (names.filter (candMatch target)).filter (eightMatch target) = []
      · rw [if_pos (List.isEmpty_iff.mpr height)] at h
        obtain ⟨m, hm, _, _⟩ := listMinStr_spec _ hne
        rw [hm] at h
        simp at h
      · rw [if_neg (fun hh => height (List.isEmpty_iff.mp hh))] at h
        obtain ⟨m, hm, _, _⟩ := listMinStr_spec _ height
        rw [hm] at h
        simp at h
  · intro h
    have hfil : names.filter (candMatch target) = [] :=
      List.filter_eq_nil_iff.mpr (fun a ha => by simp [h a ha])
    rw [if_neg (by rw [hfil]; simp)]
    rw [if_pos (List.isEmpty_iff.mpr (by rw [hfil]; rfl))]
    rw [hfil]
    rfl

/-! ## Claim C6 -/

theorem dupName_inj (stem suffix : String) {i j : Nat}
    (h : dupName stem i suffix = dupName stem j suffix) : i = j := by
  unfold dupName at h
  have hd := congrArg String.data h
  simp only [String.data_append] at hd
  have hd2 : (stem.data ++ "_dup".data ++ natDecimal i) ++ suffix.data
      = (stem.data ++ "_dup".data ++ natDecimal j) ++ suffix.data := by
    simpa [List.append_assoc] using hd
  have hd3 := List.append_cancel_right hd2
  have hd4 : natDecimal i = natDecimal j := by
    have h5 : stem.data ++ "_dup".data ++ natDecimal i
        = stem.data ++ "_dup".data ++ natDecimal j := hd3
    rw [List.append_assoc, List.append_assoc] at h5
    exact List.append_cancel_left (List.append_cancel_left h5)
  exact natDecimal_injective hd4

theorem dupCandidate_inj (dest : PyPath) {i j : Nat}
    (h : dupCandidate dest i = dupCandidate dest j) : i = j := by
  unfold dupCandidate at h
  exact dupName_inj _ _ (congrArg PyPath.name h)

theorem natDecimal_one : natDecimal 1 = ['1'] := by decide

theorem dupCandidate_one_ne (dest : PyPath) : dupCandidate dest 1 ≠ dest := by
  intro h
  have hn := congrArg (fun p : PyPath => p.name.data) h
  simp only [dupCandidate, dupName] at hn
  have hn2 : (pyStem dest.name).data ++ "_dup".data ++ natDecimal 1
      ++ (pySuffix dest.name).data = dest.name.data := by
    simpa [String.data_append] using hn
  have hlen := congrArg List.length hn2
  have hlen2 := congrArg List.length (pyStem_data_append_pySuffix dest.name)
  rw [natDecimal_one] at hlen
  simp only [List.length_append, List.length_cons, List.length_nil] at hlen hlen2
  have hdup : ("_dup" : String).data.length = 4 := by decide
  omega

theorem exists_free_dup (fs : List PyPath) (dest : PyPath) :
    ∃ i, 1 ≤ i ∧ i ≤ fs.length + 1 ∧ dupCandidate dest i ∉ fs := by
  by_contra hnot
  push_neg at hnot
  have hsub : (Finset.Icc 1 (fs.length + 1)).image (dupCandidate dest) ⊆ fs.toFinset := by
    intro p hp
    obtain ⟨i, hi, rfl⟩ := Finset.mem_image.mp hp
    obtain ⟨hi1, hi2⟩ := Finset.mem_Icc.mp hi
    exact List.mem_toFinset.mpr (hnot i hi1 hi2)
  have hcard : ((Finset.Icc 1 (fs.length + 1)).image (dupCandidate dest)).card
      = fs.length + 1 := by
    rw [Finset.card_image_of_injOn (fun a _ b _ hab => dupCandidate_inj dest hab)]
    rw [Nat.card_Icc]
    omega
  have hle := Finset.card_le_card hsub
  have := List.toFinset_card_le fs
  omega

theorem ensureUniqueLoop_none (fs : List PyPath) (dest : PyPath) :
    ∀ fuel i, ensureUniqueLoop fs dest fuel i = none →
      ∀ j, i ≤ j → j < i + fuel → dupCandidate dest j ∈ fs := by
  intro fuel
  induction fuel with
  | zero =>
    intro i _ j _ hj
    omega
  | succ fuel ih =>
    intro i h j hij hj
    rw [ensureUniqueLoop] at h
    by_cases hex : pyPathExists fs (dupCandidate dest i) = true
    · rw [if_pos hex] at h
      by_cases hji : j = i
      · subst hji
        simpa [pyPathExists] using hex
      · exact ih (i + 1) h j (by omega) (by omega)
    · rw [if_neg hex] at h
      exact absurd h (by simp)

theorem ensureUniqueLoop_least (fs : List PyPath) (dest : PyPath) (N : Nat) :
    ∀ fuel i, i ≤ N →
      (∀ j, i ≤ j → j < N → pyPathExists fs (dupCandidate dest j) = true) →
      pyPathExists fs (dupCandidate dest N) = false →
      N < i + fuel →
      ensureUniqueLoop fs dest fuel i = some (dupCandidate dest N) := by
  intro fuel
  induction fuel with
  | zero =>
    intro i hiN _ _ hlt
    omega
  | succ fuel ih =>
    intro i hiN hall hN hlt
    rw [ensureUniqueLoop]
    by_cases hi : i = N
    · subst hi
      rw [if_neg (by rw [hN]; simp)]
    · have hiN2 : i < N := lt_of_le_of_ne hiN hi
      rw [if_pos (hall i le_rfl hiN2)]
      exact ih (i + 1) (by omega) (fun j hj1 hj2 => hall j (by omega) hj2) hN (by omega)

/-- The fuel supplied by `ensure_unique_total` always suffices. -/
theorem ensure_unique_total_spec (fs : List PyPath) (dest : PyPath) :
    ensure_unique_path_fast fs (fs.length + 1) dest ≠ none := by
  unfold ensure_unique_path_fast
  by_cases hex : pyPathExists fs dest = true
  · rw [if_pos hex]
    intro hnone
    obtain ⟨i, h1, h2, h3⟩ := exists_free_dup fs dest
    exact h3 (ensureUniqueLoop_none fs dest _ _ hnone i h1 (by omega))
  · rw [if_neg hex]
    simp

/-- C6.  Collision resolution returns the destination unchanged when it does
not exist; otherwise the `_dupN` candidate for the least `N ≥ 1` that does not
exist; hence two same-named records in one sequential run land at `name.ext`
and `name_dup1.ext`, distinct paths, neither overwriting the other. -/
theorem ensure_unique_path_correct (fs : List PyPath) (fuel : Nat) (dest : PyPath) (N : Nat) :
    (pyPathExists fs dest = false → ensure_unique_path_fast fs fuel dest = some dest)
    ∧ (pyPathExists fs dest = true → 1 ≤ N →
        (∀ j, 1 ≤ j → j < N → pyPathExists fs (dupCandidate dest j) = true) →
        pyPathExists fs (dupCandidate dest N) = false → N ≤ fuel →
        ensure_unique_path_fast fs fuel dest = some (dupCandidate dest N))
    ∧ (pyPathExists fs dest = false → pyPathExists fs (dupCandidate dest 1) = false →
        1 ≤ fuel →
        ensure_unique_path_fast fs fuel dest = some dest
        ∧ ensure_unique_path_fast (dest :: fs) fuel dest = some (dupCandidate dest 1)
        ∧ dupCandidate dest 1 ≠ dest) := by
  refine ⟨?_, ?_, ?_⟩
  · intro h
    unfold ensure_unique_path_fast
    rw [if_neg (by rw [h]; simp)]
  · intro hex h1 hall hN hfuel
    unfold ensure_unique_path_fast
    rw [if_pos hex]
    exact ensureUniqueLoop_least fs dest N fuel 1 h1 hall hN (by omega)
  · intro h0 h1c hf
    have hne := dupCandidate_one_ne dest
    refine ⟨?_, ?_, hne⟩
    · unfold ensure_unique_path_fast
      rw [if_neg (by rw [h0]; simp)]
    · unfold ensure_unique_path_fast
      rw [if_pos (by simp [pyPathExists])]
      have hN : pyPathExists (dest :: fs) (dupCandidate dest 1) = false := by
        have : dupCandidate dest 1 ∉ fs := by simpa [pyPathExists] using h1c
        simp [pyPathExists, hne, this]
      exact ensureUniqueLoop_least (dest :: fs) dest 1 fuel 1 le_rfl
        (fun j hj1 hj2 => absurd (lt_of_le_of_lt hj1 hj2) (lt_irrefl 1)) hN (by omega)

theorem ensure_unique_path_witness :
    pyPathExists [({ dir := "out", name := "a.jpg" } : PyPath)]
        { dir := "out", name := "a.jpg" } = true
    ∧ pyPathExists [({ dir := "out", name := "a.jpg" } : PyPath)]
        (dupCandidate { dir := "out", name := "a.jpg" } 1) = false
    ∧ ensure_unique_path_fast [({ dir := "out", name := "a.jpg" } : PyPath)] 2
        { dir := "out", name := "a.jpg" }
        = some (dupCandidate { dir := "out", name := "a.jpg" } 1) :=
  ⟨by decide, by decide,
    (ensure_unique_path_correct [{ dir := "out", name := "a.jpg" }] 2
        { dir := "out", name := "a.jpg" } 1).2.1 (by decide) le_rfl
      (fun j hj1 hj2 => absurd (lt_of_le_of_lt hj1 hj2) (lt_irrefl 1)) (by decide)
      (by omega)⟩

/-! ## Claim C1 -/

theorem fsSet_self (fs : FSModel) (p : PyPath) (v : Option Nat) : fsSet fs p v p = v := by
  simp [fsSet]

theorem fsSet_ne (fs : FSModel) (p : PyPath) (v : Option Nat) {q : PyPath} (h : q ≠ p) :
    fsSet fs p v q = fs q := by
  simp [fsSet, h]

theorem tmpOf_ne (dst : PyPath) : dst ≠ tmpOf dst := by
  intro h
  have := congrArg (fun p : PyPath => p.name.data.length) h
  simp only [tmpOf, String.data_append] at this
  simp at this

/-- One failing/succeeding loop body, with the state facts the retry proof
needs. -/
theorem copyAttempt_cases (f : CopyFault) (src dst tmp : PyPath) (fs : FSModel) (sz : Nat)
    (hs : fs src = some sz) (hst : src ≠ tmp) (hdt : dst ≠ tmp) :
    ((copyAttempt f src dst tmp fs).1 = true
      ∧ (copyAttempt f src dst tmp fs).2 dst = some sz
      ∧ ¬attemptFails f sz)
    ∨ ((copyAttempt f src dst tmp fs).1 = false
      ∧ (copyAttempt f src dst tmp fs).2 dst = fs dst
      ∧ (copyAttempt f src dst tmp fs).2 src = some sz
      ∧ attemptFails f sz) := by
  unfold copyAttempt
  have h1src : (if (fs tmp).isSome then fsSet fs tmp none else fs) src = some sz := by
    split_ifs with h
    · rw [fsSet_ne _ _ _ hst]; exact hs
    · exact hs
  have h1dst : (if (fs tmp).isSome then fsSet fs tmp none else fs) dst = fs dst := by
    split_ifs with h
    · exact fsSet_ne _ _ _ hdt
    · rfl
  simp only [h1src]
  cases f with
  | raiseInCopy leftover =>
    right
    refine ⟨rfl, ?_, ?_, trivial⟩
    · show fsSet (if (fs tmp).isSome then fsSet fs tmp none else fs) tmp leftover dst = fs dst
      rw [fsSet_ne _ _ _ hdt, h1dst]
    · show fsSet (if (fs tmp).isSome then fsSet fs tmp none else fs) tmp leftover src = some sz
      rw [fsSet_ne _ _ _ hst, h1src]
  | completeCopy n rOk =>
    have h2src : fsSet (if (fs tmp).isSome then fsSet fs tmp none else fs) tmp (some n) src
        = some sz := by
      rw [fsSet_ne _ _ _ hst, h1src]
    have h2dst : fsSet (if (fs tmp).isSome then fsSet fs tmp none else fs) tmp (some n) dst
        = fs dst := by
      rw [fsSet_ne _ _ _ hdt, h1dst]
    simp only [h2src]
    by_cases hv : sz ≠ n
    · rw [if_pos ⟨rfl, hv⟩]
      right
      exact ⟨rfl, h2dst, h2src, Or.inl (Ne.symm hv)⟩
    · rw [if_neg (by simp [VERIFY_SIZE]; omega)]
      push_neg at hv
      subst hv
      cases rOk with
      | true =>
        rw [if_pos rfl]
        left
        refine ⟨rfl, ?_, ?_⟩
        · exact fsSet_self _ _ _
        · intro hfail
          rcases hfail with h | h
          · exact h rfl
          · exact absurd h (by simp)
      | false =>
        rw [if_neg (by simp)]
        right
        exact ⟨rfl, h2dst, h2src, Or.inr rfl⟩

theorem copyAttempts_spec (faults : Nat → CopyFault) (src dst tmp : PyPath) (sz : Nat)
    (hst : src ≠ tmp) (hdt : dst ≠ tmp) :
    ∀ fuel attempt fs, fs src = some sz → attempt + fuel = RETRY_MAX + 1 →
      1 ≤ attempt → attempt ≤ RETRY_MAX →
      (((∀ k, attempt ≤ k → k ≤ RETRY_MAX → attemptFails (faults k) sz) →
          (copyAttempts faults src dst tmp fuel attempt fs).1 = false
          ∧ (copyAttempts faults src dst tmp fuel attempt fs).2.1 tmp = none
          ∧ (copyAttempts faults src dst tmp fuel attempt fs).2.1 dst = fs dst
          ∧ (copyAttempts faults src dst tmp fuel attempt fs).2.1 src = fs src
          ∧ (copyAttempts faults src dst tmp fuel attempt fs).2.2
              = List.map (fun k : Nat => RETRY_BACKOFF_BASE * (k : ℚ))
                  (List.range' attempt (RETRY_MAX - attempt)))
        ∧ ((copyAttempts faults src dst tmp fuel attempt fs).1 = true →
            (copyAttempts faults src dst tmp fuel attempt fs).2.1 dst = some sz)
        ∧ ((copyAttempts faults src dst tmp fuel attempt fs).2.1 dst ≠ fs dst →
            (copyAttempts faults src dst tmp fuel attempt fs).1 = true)) := by
  intro fuel
  induction fuel with
  | zero =>
    intro attempt fs _ hsum _ hle
    rw [RETRY_MAX] at hsum hle
    omega
  | succ fuel ih =>
    intro attempt fs hs hsum h1 hle
    rw [copyAttempts]
    rcases copyAttempt_cases (faults attempt) src dst tmp fs sz hs hst hdt with
      ⟨hT, hdst, hnf⟩ | ⟨hF, hdst, hsrc, hfA⟩
    · rw [if_pos hT]
      refine ⟨?_, fun _ => hdst, fun _ => rfl⟩
      intro hall
      exact absurd (hall attempt le_rfl hle) hnf
    · rw [if_neg (by rw [hF]; simp)]
      by_cases hlt : attempt < RETRY_MAX
      · rw [if_pos hlt]
        have ihs := ih (attempt + 1) (copyAttempt (faults attempt) src dst tmp fs).2
          hsrc (by omega) (by omega) (by omega)
        refine ⟨?_, ?_, ?_⟩
        · intro hall
          obtain ⟨hr1, hr2, hr3, hr4, hr5⟩ :=
            ihs.1 (fun k hk1 hk2 => hall k (by omega) hk2)
          refine ⟨hr1, hr2, hr3.trans hdst, hr4.trans (hsrc.trans hs.symm), ?_⟩
          have hrng : RETRY_MAX - attempt = (RETRY_MAX - (attempt + 1)) + 1 := by omega
          rw [hrng, List.range'_succ, List.map_cons]
          exact congrArg (List.cons _) hr5
        · intro hok
          exact ihs.2.1 hok
        · intro hne
          exact ihs.2.2 (fun heq => hne (heq.trans hdst))
      · rw [if_neg hlt]
        have hdone : (if ((copyAttempt (faults attempt) src dst tmp fs).2 tmp).isSome then
            fsSet (copyAttempt (faults attempt) src dst tmp fs).2 tmp none
            else (copyAttempt (faults attempt) src dst tmp fs).2) dst = fs dst := by
          split_ifs with h
          · rw [fsSet_ne _ _ _ hdt, hdst]
          · rw [hdst]
        refine ⟨?_, ?_, ?_⟩
        · intro _
          refine ⟨rfl, ?_, hdone, ?_, ?_⟩
          · split_ifs with h
            · exact fsSet_self _ _ _
            · simpa using h
          · split_ifs with h
            · exact (fsSet_ne _ _ _ hst).trans (hsrc.trans hs.symm)
            · exact hsrc.trans hs.symm
          · have : RETRY_MAX - attempt = 0 := by omega
            rw [this]
            rfl
        · intro hok
          exact absurd hok (by simp)
        · intro hne
          exact absurd hdone hne

/-- C1.  If every attempt of the copy discipline fails, `safe_copy2_atomic`
returns `False` with the destination unchanged (hence absent when it started
absent), the `.part` temporary removed and the source untouched, sleeping
`RETRY_BACKOFF_BASE * attempt` between attempts (`attempt = 1, 2`); moreover
the destination is only ever modified by a successful run, whose published
size equals the source size read at that attempt (i.e. publication happens
only after the size verification succeeds). -/
theorem safe_copy2_atomic_retry_exhaustion (faults : Nat → CopyFault) (fs : FSModel)
    (src dst : PyPath) (sz : Nat)
    (hs : fs src = some sz) (hst : src ≠ tmpOf dst) :
    ((∀ k, 1 ≤ k → k ≤ RETRY_MAX → attemptFails (faults k) sz) →
        (safe_copy2_atomic faults fs src dst).1 = false
        ∧ (safe_copy2_atomic faults fs src dst).2.1 (tmpOf dst) = none
        ∧ (safe_copy2_atomic faults fs src dst).2.1 dst = fs dst
        ∧ (fs dst = none → (safe_copy2_atomic faults fs src dst).2.1 dst = none)
        ∧ (safe_copy2_atomic faults fs src dst).2.1 src = fs src
        ∧ (safe_copy2_atomic faults fs src dst).2.2
            = [RETRY_BACKOFF_BASE * 1, RETRY_BACKOFF_BASE * 2])
    ∧ ((safe_copy2_atomic faults fs src dst).1 = true →
        (safe_copy2_atomic faults fs src dst).2.1 dst = some sz)
    ∧ ((safe_copy2_atomic faults fs src dst).2.1 dst ≠ fs dst →
        (safe_copy2_atomic faults fs src dst).1 = true) := by
  have hmain := copyAttempts_spec faults src dst (tmpOf dst) sz hst (tmpOf_ne dst)
    RETRY_MAX 1 fs hs (by rw [RETRY_MAX]) le_rfl (by rw [RETRY_MAX]; omega)
  refine ⟨?_, hmain.2.1, hmain.2.2⟩
  intro hall
  obtain ⟨h1, h2, h3, h4, h5⟩ := hmain.1 hall
  refine ⟨h1, h2, h3, fun hnone => h3.trans hnone, h4, h5.trans ?_⟩
  rw [show RETRY_MAX - 1 = 2 from by rw [RETRY_MAX]]
  norm_num [List.range'_succ]

theorem safe_copy2_atomic_retry_witness :
    ((fun p : PyPath => if p = { dir := "b", name := "x.jpg" } then some 5 else none)
        { dir := "b", name := "x.jpg" } = some 5)
    ∧ ((safe_copy2_atomic (fun _ => CopyFault.raiseInCopy (some 2))
          (fun p : PyPath => if p = { dir := "b", name := "x.jpg" } then some 5 else none)
          { dir := "b", name := "x.jpg" } { dir := "out", name := "y.jpg" }).1 = false
        ∧ (safe_copy2_atomic (fun _ => CopyFault.raiseInCopy (some 2))
            (fun p : PyPath => if p = { dir := "b", name := "x.jpg" } then some 5 else none)
            { dir := "b", name := "x.jpg" } { dir := "out", name := "y.jpg" }).2.1
              (tmpOf { dir := "out", name := "y.jpg" }) = none) := by
  have h := safe_copy2_atomic_retry_exhaustion (fun _ => CopyFault.raiseInCopy (some 2))
    (fun p : PyPath => if p = { dir := "b", name := "x.jpg" } then some 5 else none)
    { dir := "b", name := "x.jpg" } { dir := "out", name := "y.jpg" } 5
    (by decide) (by decide)
  have hall := h.1 (fun k _ _ => trivial)
  exact ⟨by decide, hall.1, hall.2.1⟩

/-! ## Worker loop lemmas (claims C7, C8, C9) -/

theorem processRecord_total (env : WEnv) (y o : String) (i : Nat) (r : BRec) (st : WState) :
    (processRecord env y o i r st).stats.total = st.stats.total := by
  simp only [processRecord, processCopy]
  repeat' split
  all_goals rfl

theorem processRecord_escaped_mono (env : WEnv) (y o : String) (i : Nat) (r : BRec)
    (st : WState) (h : (processRecord env y o i r st).escaped = false) :
    st.escaped = false := by
  simp only [processRecord, processCopy] at h
  revert h
  repeat' split
  all_goals intro h
  all_goals first | exact h | simp at h

theorem processRecord_no_mkdir_escape (env : WEnv) (y o : String) (i : Nat) (r : BRec)
    (st : WState) (hmk : env.mkdirRaises i = false) :
    (processRecord env y o i r st).escaped = st.escaped := by
  simp only [processRecord, processCopy]
  repeat' split
  all_goals first | rfl | simp_all

theorem processRecord_progress (env : WEnv) (y o : String) (i : Nat) (r : BRec)
    (st : WState) (h : (processRecord env y o i r st).escaped = false) :
    (processRecord env y o i r st).stats.processed = st.stats.processed + 1
    ∧ (processRecord env y o i r st).rows.length = st.rows.length + 1 := by
  simp only [processRecord, processCopy] at h ⊢
  revert h
  repeat' split
  all_goals intro h
  all_goals simp_all

theorem processRecord_statsInv (env : WEnv) (y o : String) (i : Nat) (r : BRec)
    (st : WState) (h : statsInv st.stats) :
    statsInv (processRecord env y o i r st).stats := by
  unfold statsInv at h ⊢
  obtain ⟨h1, h2⟩ := h
  simp only [processRecord, processCopy]
  repeat' split
  all_goals simp
  all_goals omega

theorem processRecord_cache (env : WEnv) (y o : String) (i : Nat) (r : BRec) (st : WState) :
    ((processRecord env y o i r st).hm_cache = st.hm_cache
      ∧ (processRecord env y o i r st).buildLog = st.buildLog)
    ∨ (st.hm_cache.lookup (keyOfRec r) = none
      ∧ (processRecord env y o i r st).hm_cache
          = pyDictInsert st.hm_cache (keyOfRec r)
              (build_hm_index_for_set (env.aListing (addrOfKey (keyOfRec r))))
      ∧ (processRecord env y o i r st).buildLog = st.buildLog ++ [keyOfRec r]) := by
  simp only [processRecord, processCopy]
  split
  · exact Or.inl ⟨rfl, rfl⟩
  · cases hc : st.hm_cache.lookup (keyOfRec r) with
    | some m =>
      simp only [hc]
      left
      refine ⟨?_, ?_⟩ <;> (repeat' split) <;> rfl
    | none =>
      simp only [hc]
      right
      refine ⟨by trivial, ?_, ?_⟩ <;> (repeat' split) <;> rfl

theorem processRecord_cache_stable (env : WEnv) (y o : String) (i : Nat) (r : BRec)
    (st : WState) (k : CacheKey) (m : HMMap) (h : st.hm_cache.lookup k = some m) :
    (processRecord env y o i r st).hm_cache.lookup k = some m := by
  rcases processRecord_cache env y o i r st with ⟨hcache, _⟩ | ⟨hnone, hcache, _⟩
  · rw [hcache]
    exact h
  · rw [hcache]
    have hk : k ≠ keyOfRec r := by
      intro he
      rw [he, hnone] at h
      exact absurd h (by simp)
    rw [lookup_pyDictInsert_ne _ _ _ _ hk]
    exact h
theorem workerLoop_total (env : WEnv) (y o : String) :
    ∀ (l : List BRec) (i : Nat) (st : WState),
      (workerLoop env y o l i st).stats.total = st.stats.total := by
  intro l
  induction l with
  | nil => intro i st; rfl
  | cons r rs ih =>
    intro i st
    simp only [workerLoop]
    split_ifs with h
    · exact processRecord_total env y o i r st
    · rw [ih]
      exact processRecord_total env y o i r st

theorem workerLoop_statsInv (env : WEnv) (y o : String) :
    ∀ (l : List BRec) (i : Nat) (st : WState), statsInv st.stats →
      statsInv (workerLoop env y o l i st).stats := by
  intro l
  induction l with
  | nil => intro i st h; exact h
  | cons r rs ih =>
    intro i st h
    simp only [workerLoop]
    split_ifs with hesc
    · exact processRecord_statsInv env y o i r st h
    · exact ih (i + 1) _ (processRecord_statsInv env y o i r st h)

theorem workerLoop_progress (env : WEnv) (y o : String) :
    ∀ (l : List BRec) (i : Nat) (st : WState),
      (workerLoop env y o l i st).escaped = false →
        st.escaped = false
        ∧ (workerLoop env y o l i st).stats.processed = st.stats.processed + l.length
        ∧ (workerLoop env y o l i st).rows.length = st.rows.length + l.length := by
  intro l
  induction l with
  | nil => intro i st h; exact ⟨h, rfl, rfl⟩
  | cons r rs ih =>
    intro i st h
    simp only [workerLoop] at h ⊢
    split_ifs at h ⊢ with hesc
    · exact absurd h (by simp [hesc])
    · have hesc2 : (processRecord env y o i r st).escaped = false := by
        simpa using hesc
      obtain ⟨hp1, hp2⟩ := processRecord_progress env y o i r st hesc2
      obtain ⟨_, hl1, hl2⟩ := ih (i + 1) _ h
      refine ⟨processRecord_escaped_mono env y o i r st hesc2, ?_, ?_⟩
      · rw [hl1, hp1, List.length_cons]
        omega
      · rw [hl2, hp2, List.length_cons]
        omega

theorem workerLoop_no_escape (env : WEnv) (y o : String)
    (hmk : ∀ i, env.mkdirRaises i = false) :
    ∀ (l : List BRec) (i : Nat) (st : WState), st.escaped = false →
      (workerLoop env y o l i st).escaped = false := by
  intro l
  induction l with
  | nil => intro i st h; exact h
  | cons r rs ih =>
    intro i st h
    have hstep : (processRecord env y o i r st).escaped = false := by
      rw [processRecord_no_mkdir_escape env y o i r st (hmk i)]
      exact h
    simp only [workerLoop]
    rw [if_neg (by simp [hstep])]
    exact ih (i + 1) _ hstep

theorem workerLoop_cache_count (env : WEnv) (y o : String) :
    ∀ (l : List BRec) (i : Nat) (st : WState),
      ((∀ k, st.buildLog.count k ≤ 1)
        ∧ (∀ k m, st.hm_cache.lookup k = some m →
            m = build_hm_index_for_set (env.aListing (addrOfKey k)))
        ∧ (∀ k, k ∈ st.buildLog ↔ (st.hm_cache.lookup k).isSome = true)) →
      ((∀ k, (workerLoop env y o l i st).buildLog.count k ≤ 1)
        ∧ (∀ k m, (workerLoop env y o l i st).hm_cache.lookup k = some m →
            m = build_hm_index_for_set (env.aListing (addrOfKey k)))
        ∧ (∀ k, k ∈ (workerLoop env y o l i st).buildLog ↔
            ((workerLoop env y o l i st).hm_cache.lookup k).isSome = true)) := by
  have step : ∀ (i : Nat) (r : BRec) (st : WState),
      ((∀ k, st.buildLog.count k ≤ 1)
        ∧ (∀ k m, st.hm_cache.lookup k = some m →
            m = build_hm_index_for_set (env.aListing (addrOfKey k)))
        ∧ (∀ k, k ∈ st.buildLog ↔ (st.hm_cache.lookup k).isSome = true)) →
      ((∀ k, (processRecord env y o i r st).buildLog.count k ≤ 1)
        ∧ (∀ k m, (processRecord env y o i r st).hm_cache.lookup k = some m →
            m = build_hm_index_for_set (env.aListing (addrOfKey k)))
        ∧ (∀ k, k ∈ (processRecord env y o i r st).buildLog ↔
            ((processRecord env y o i r st).hm_cache.lookup k).isSome = true)) := by
    intro i r st ⟨h1, h2, h3⟩
    rcases processRecord_cache env y o i r st with ⟨hc, hl⟩ | ⟨hnone, hc, hl⟩
    · rw [hc, hl]
      exact ⟨h1, h2, h3⟩
    · have hnotmem : keyOfRec r ∉ st.buildLog := by
        intro hm
        have := (h3 (keyOfRec r)).mp hm
        rw [hnone] at this
        simp at this
      refine ⟨?_, ?_, ?_⟩
      · intro k
        rw [hl, List.count_append]
        by_cases hk : k = keyOfRec r
        · subst hk
          have : st.buildLog.count (keyOfRec r) = 0 := List.count_eq_zero.mpr hnotmem
          rw [this]
          simp
        · have : List.count k [keyOfRec r] = 0 :=
            List.count_eq_zero.mpr (by simp [hk])
          rw [this]
          simpa using h1 k
      · intro k m hkm
        rw [hc] at hkm
        by_cases hk : k = keyOfRec r
        · subst hk
          rw [lookup_pyDictInsert_self] at hkm
          exact (Option.some_inj.mp hkm).symm
        · rw [lookup_pyDictInsert_ne _ _ _ _ hk] at hkm
          exact h2 k m hkm
      · intro k
        rw [hl, hc]
        by_cases hk : k = keyOfRec r
        · subst hk
          rw [lookup_pyDictInsert_self]
          simp
        · rw [lookup_pyDictInsert_ne _ _ _ _ hk]
          simpa [hk] using h3 k
  intro l
  induction l with
  | nil => intro i st h; exact h
  | cons r rs ih =>
    intro i st h
    simp only [workerLoop]
    split_ifs with hesc
    · exact step i r st h
    · exact ih (i + 1) _ (step i r st h)

/-! ## Claim C5 -/

/-- C5.  A successfully matched record is composed as
`{runKey}-{setId}-{base}_{tag}_{index}{extension}` (Single) or
`{runKey}-{stopId}-{setId}-{base}_{tag}_{index}{extension}` (Multi), the
output directory is `{outRoot}/{runKey}/{index}/`, and on the spec's
end-to-end scenario the worker produces exactly the expected `OK` rows
(`250527-0001-lumi_H_01.jpg` under `out/250527/01`, `..._M_02.jpg` under
`out/250527/02`) with `succeeded = 2, skipped = 0`. -/
theorem worker_name_composition :
    (∀ (yymmdd set_no base hm nn ext : String) (stop : Option String),
        worker_new_name "single" yymmdd stop set_no base hm nn ext
          = yymmdd ++ "-" ++ set_no ++ "-" ++ base ++ "_" ++ hm ++ "_" ++ nn ++ ext)
    ∧ (∀ (yymmdd stp set_no base hm nn ext : String),
        worker_new_name "multi" yymmdd (some stp) set_no base hm nn ext
          = yymmdd ++ "-" ++ stp ++ "-" ++ set_no ++ "-" ++ base
              ++ "_" ++ hm ++ "_" ++ nn ++ ext)
    ∧ (∀ (out_root yymmdd nn : String),
        worker_out_dir out_root yymmdd nn = out_root ++ "/" ++ yymmdd ++ "/" ++ nn)
    ∧ ((worker e2eEnv "250527" "out" [] e2eRecords).rows
        = [("lumi_01.jpg", "out/250527/01/250527-0001-lumi_H_01.jpg", "OK", ""),
           ("lumi_02.jpg", "out/250527/02/250527-0001-lumi_M_02.jpg", "OK", "")]
      ∧ (worker e2eEnv "250527" "out" [] e2eRecords).stats.copied_ok = 2
      ∧ (worker e2eEnv "250527" "out" [] e2eRecords).stats.skipped = 0) := by
  refine ⟨?_, ?_, ?_, by decide⟩
  · intro yymmdd set_no base hm nn ext stop
    simp [worker_new_name]
  · intro yymmdd stp set_no base hm nn ext
    simp [worker_new_name, pyFmtOpt]
  · intro out_root yymmdd nn
    rfl

/-! ## Claim C7 -/

/-- C7 (amended to `newapp.py`'s worker; `newapp3.py`'s worker rebuilds the
index for every record, see `newapp3_rebuilds_index`).  Within one run the
quality index for a given `(branch, stopId, setId)` key is built at most
once, every cached entry equals the canonical index built from that key's set
folder, and a cache entry, once present, survives every later record
unchanged — later records with the same key reuse it. -/
theorem worker_cache_built_once (env : WEnv) (yymmdd out_root : String)
    (outFS0 : List PyPath) (records : List BRec) :
    (∀ k, (worker env yymmdd out_root outFS0 records).buildLog.count k ≤ 1)
    ∧ (∀ k m, (worker env yymmdd out_root outFS0 records).hm_cache.lookup k = some m →
        m = build_hm_index_for_set (env.aListing (addrOfKey k)))
    ∧ (∀ (i : Nat) (r : BRec) (st : WState) (k : CacheKey) (m : HMMap),
        st.hm_cache.lookup k = some m →
        (processRecord env yymmdd out_root i r st).hm_cache.lookup k = some m) := by
  have hcache : (worker env yymmdd out_root outFS0 records).hm_cache
      = (workerLoop env yymmdd out_root records 1 (initState outFS0 records)).hm_cache := by
    simp only [worker, manifestPhase]
    split_ifs <;> rfl
  have hlog : (worker env yymmdd out_root outFS0 records).buildLog
      = (workerLoop env yymmdd out_root records 1 (initState outFS0 records)).buildLog := by
    simp only [worker, manifestPhase]
    split_ifs <;> rfl
  have hinit : (∀ k, (initState outFS0 records).buildLog.count k ≤ 1)
      ∧ (∀ k m, (initState outFS0 records).hm_cache.lookup k = some m →
          m = build_hm_index_for_set (env.aListing (addrOfKey k)))
      ∧ (∀ k, k ∈ (initState outFS0 records).buildLog ↔
          ((initState outFS0 records).hm_cache.lookup k).isSome = true) := by
    refine ⟨fun k => by simp [initState], fun k m h => ?_, fun k => by simp [initState]⟩
    simp [initState] at h
  have hloop := workerLoop_cache_count env yymmdd out_root records 1
    (initState outFS0 records) hinit
  exact ⟨fun k => hlog ▸ hloop.1 k, fun k m h => hloop.2.1 k m (hcache ▸ h),
    fun i r st k m h => processRecord_cache_stable env yymmdd out_root i r st k m h⟩

/-- C7 counterexample: `newapp3.py`'s worker has no cache and calls
`build_hm_index_for_set` once per parsed record (line 291), so two records of
the same set build the quality index for that key twice — not at most once. -/
theorem newapp3_rebuilds_index :
    ¬((newapp3BuildLog
        [{ mode := "single", stop := none, set_no := "0001", fname := "lumi_01.jpg" },
         { mode := "single", stop := none, set_no := "0001", fname := "lumi_02.jpg" }]).count
          ((none, "0001") : ASetAddr) ≤ 1) := by decide

theorem newapp3ProcessRecord_done (env : N3Env) (y o : String) (i : Nat) (r : BRec)
    (st : N3State) :
    (newapp3ProcessRecord env y o i r st).stats.done = st.stats.done := by
  simp only [newapp3ProcessRecord]
  repeat' split
  all_goals rfl

theorem newapp3ProcessRecord_no_mkdir_escape (env : N3Env) (y o : String) (i : Nat)
    (r : BRec) (st : N3State) (hmk : env.mkdirRaises i = false) :
    (newapp3ProcessRecord env y o i r st).escaped = st.escaped := by
  simp only [newapp3ProcessRecord]
  repeat' split
  all_goals first | rfl | simp_all

theorem newapp3ProcessRecord_progress (env : N3Env) (y o : String) (i : Nat) (r : BRec)
    (st : N3State) (h : (newapp3ProcessRecord env y o i r st).escaped = false) :
    st.escaped = false
    ∧ (newapp3ProcessRecord env y o i r st).stats.processed = st.stats.processed + 1 := by
  simp only [newapp3ProcessRecord] at h ⊢
  revert h
  repeat' split
  all_goals intro h
  all_goals simp_all

theorem newapp3Loop_done (env : N3Env) (y o : String) :
    ∀ (l : List BRec) (i : Nat) (st : N3State),
      (newapp3Loop env y o l i st).stats.done = st.stats.done := by
  intro l
  induction l with
  | nil => intro i st; rfl
  | cons r rs ih =>
    intro i st
    simp only [newapp3Loop]
    split_ifs with h
    · exact newapp3ProcessRecord_done env y o i r st
    · rw [ih]
      exact newapp3ProcessRecord_done env y o i r st

theorem newapp3Loop_no_escape (env : N3Env) (y o : String)
    (hmk : ∀ i, env.mkdirRaises i = false) :
    ∀ (l : List BRec) (i : Nat) (st : N3State), st.escaped = false →
      (newapp3Loop env y o l i st).escaped = false := by
  intro l
  induction l with
  | nil => intro i st h; exact h
  | cons r rs ih =>
    intro i st h
    have hstep : (newapp3ProcessRecord env y o i r st).escaped = false := by
      rw [newapp3ProcessRecord_no_mkdir_escape env y o i r st (hmk i)]
      exact h
    simp only [newapp3Loop]
    rw [if_neg (by simp [hstep])]
    exact ih (i + 1) _ hstep

theorem newapp3Loop_progress (env : N3Env) (y o : String) :
    ∀ (l : List BRec) (i : Nat) (st : N3State),
      (newapp3Loop env y o l i st).escaped = false →
        st.escaped = false
        ∧ (newapp3Loop env y o l i st).stats.processed
            = st.stats.processed + l.length := by
  intro l
  induction l with
  | nil => intro i st h; exact ⟨h, rfl⟩
  | cons r rs ih =>
    intro i st h
    simp only [newapp3Loop] at h ⊢
    split_ifs at h ⊢ with hesc
    · exact absurd h (by simp [hesc])
    · have hesc2 : (newapp3ProcessRecord env y o i r st).escaped = false := by
        simpa using hesc
      obtain ⟨hs0, hp⟩ := newapp3ProcessRecord_progress env y o i r st hesc2
      obtain ⟨_, hl⟩ := ih (i + 1) _ h
      refine ⟨hs0, ?_⟩
      rw [hl, hp, List.length_cons]
      omega

/-! ## Claim C8 -/

/-- C8 (amended).  Per-record parse, match and transfer failures are absorbed
in both cited workers (`copyOk`/`transferOk` are unconstrained below), but the
exception behaviour differs.  In `newapp.py`'s worker the loop body sits in
`try`/`finally`, so the shared `done` flag is always set; an OS exception at
output-directory creation or at the manifest block escapes the loop (the `try`
has no `except`), and the manifest (one row per input record) is only
guaranteed when no such exception occurs and the manifest write succeeds.
`newapp3.py`'s worker has no `try`/`finally` and writes no manifest at all:
absent an OS error at its unguarded `out_dir.mkdir` the run completes with
`done` set and every record processed, while an escaped error leaves `done`
unset. -/
theorem worker_error_containment :
    (∀ (env : WEnv) (yymmdd out_root : String) (outFS0 : List PyPath)
        (records : List BRec),
      (worker env yymmdd out_root outFS0 records).stats.done = true
      ∧ ((∀ i, env.mkdirRaises i = false) → env.manifestMkdirRaises = false →
          env.manifestWriteOk = true →
          (worker env yymmdd out_root outFS0 records).escaped = false
          ∧ (worker env yymmdd out_root outFS0 records).manifestWritten = true
          ∧ (worker env yymmdd out_root outFS0 records).rows.length = records.length))
    ∧ (∀ (env3 : N3Env) (yymmdd out_root : String) (outFS0 : List PyPath)
        (records : List BRec),
      ((∀ i, env3.mkdirRaises i = false) →
          (newapp3Worker env3 yymmdd out_root outFS0 records).escaped = false
          ∧ (newapp3Worker env3 yymmdd out_root outFS0 records).stats.done = true
          ∧ (newapp3Worker env3 yymmdd out_root outFS0 records).stats.processed
              = records.length)
      ∧ ((newapp3Worker env3 yymmdd out_root outFS0 records).escaped = true →
          (newapp3Worker env3 yymmdd out_root outFS0 records).stats.done = false)) := by
  constructor
  · intro env yymmdd out_root outFS0 records
    constructor
    · rfl
    · intro h1 h2 h3
      have hloop : (workerLoop env yymmdd out_root records 1
          (initState outFS0 records)).escaped = false :=
        workerLoop_no_escape env yymmdd out_root h1 records 1 _ rfl
      have hrows := (workerLoop_progress env yymmdd out_root records 1 _ hloop).2.2
      simp only [worker]
      rw [if_neg (by simp [hloop])]
      simp only [manifestPhase]
      rw [if_neg (by simp [h2])]
      refine ⟨hloop, by simp [h3], ?_⟩
      show (workerLoop env yymmdd out_root records 1
          (initState outFS0 records)).rows.length = records.length
      rw [hrows]
      simp [initState]
  · intro env3 yymmdd out_root outFS0 records
    constructor
    · intro hmk
      have hloop : (newapp3Loop env3 yymmdd out_root records 1
          (newapp3InitState outFS0 records)).escaped = false :=
        newapp3Loop_no_escape env3 yymmdd out_root hmk records 1 _ rfl
      have hproc := (newapp3Loop_progress env3 yymmdd out_root records 1 _ hloop).2
      simp only [newapp3Worker]
      rw [if_neg (by simp [hloop])]
      refine ⟨hloop, rfl, ?_⟩
      show (newapp3Loop env3 yymmdd out_root records 1
          (newapp3InitState outFS0 records)).stats.processed = records.length
      rw [hproc]
      simp [newapp3InitState]
    · intro hesc
      by_cases hl : (newapp3Loop env3 yymmdd out_root records 1
          (newapp3InitState outFS0 records)).escaped = true
      · simp only [newapp3Worker]
        rw [if_pos hl, newapp3Loop_done]
        rfl
      · exfalso
        have hl2 : (newapp3Loop env3 yymmdd out_root records 1
            (newapp3InitState outFS0 records)).escaped = false := by simpa using hl
        simp only [newapp3Worker] at hesc
        rw [if_neg (by simp [hl2])] at hesc
        exact absurd (hl2 ▸ hesc) (by simp)

/-- C8 counterexample: with an OS error injected at `out_dir.mkdir` for the
single record (whose parse and A-side match succeed), the exception escapes
both workers.  In `newapp.py` no manifest with one row per record is produced
(`done` is still set by the `finally`); in `newapp3.py`, which has no
`try`/`finally`, `done` is never set.  This refutes the claim as stated. -/
theorem worker_unguarded_mkdir_cex :
    ¬((worker
        { aListing := fun a => if a = (none, "0001") then some ["raw_High_01.jpg"] else none,
          copyOk := fun _ => true, mkdirRaises := fun _ => true,
          manifestMkdirRaises := false, manifestWriteOk := true }
        "250527" "out" []
        [{ mode := "single", stop := none, set_no := "0001", fname := "lumi_01.jpg" }]).escaped
          = false
      ∧ (worker
        { aListing := fun a => if a = (none, "0001") then some ["raw_High_01.jpg"] else none,
          copyOk := fun _ => true, mkdirRaises := fun _ => true,
          manifestMkdirRaises := false, manifestWriteOk := true }
        "250527" "out" []
        [{ mode := "single", stop := none, set_no := "0001", fname := "lumi_01.jpg" }]).rows.length
          = 1)
    ∧ (newapp3Worker
        { aListing := fun a => if a = (none, "0001") then some ["raw_High_01.jpg"] else none,
          transferOk := fun _ => true, mkdirRaises := fun _ => true }
        "250527" "out" []
        [{ mode := "single", stop := none, set_no := "0001", fname := "lumi_01.jpg" }]).escaped
          = true
    ∧ (newapp3Worker
        { aListing := fun a => if a = (none, "0001") then some ["raw_High_01.jpg"] else none,
          transferOk := fun _ => true, mkdirRaises := fun _ => true }
        "250527" "out" []
        [{ mode := "single", stop := none, set_no := "0001", fname := "lumi_01.jpg" }]).stats.done
          = false := by decide

/-! ## Claim C9 -/

/-- C9.  After each record the statistics satisfy
`processed = copied_ok + skipped` and
`skipped = skip_no_num + skip_no_hm + skip_no_setdir + skip_empty_set +
copy_errors` (transfer errors are counted inside `skipped`), and a run that
completes normally ends with `processed = total = number of records`. -/
theorem worker_stats_balance (env : WEnv) (yymmdd out_root : String)
    (outFS0 : List PyPath) (records : List BRec) :
    (∀ n, statsInv ((workerLoop env yymmdd out_root (records.take n) 1
        (initState outFS0 records)).stats))
    ∧ ((worker env yymmdd out_root outFS0 records).escaped = false →
        (worker env yymmdd out_root outFS0 records).stats.processed
            = (worker env yymmdd out_root outFS0 records).stats.total
        ∧ (worker env yymmdd out_root outFS0 records).stats.total = records.length) := by
  constructor
  · intro n
    refine workerLoop_statsInv env yymmdd out_root (records.take n) 1 _ ?_
    simp [statsInv, initState]
  · intro hesc
    by_cases hl : (workerLoop env yymmdd out_root records 1
        (initState outFS0 records)).escaped = true
    · exfalso
      simp only [worker] at hesc
      rw [if_pos hl] at hesc
      simp [hl] at hesc
    · have hl2 : (workerLoop env yymmdd out_root records 1
          (initState outFS0 records)).escaped = false := by simpa using hl
      by_cases hm : env.manifestMkdirRaises = true
      · exfalso
        simp only [worker] at hesc
        rw [if_neg (by simp [hl2])] at hesc
        simp only [manifestPhase] at hesc
        rw [if_pos hm] at hesc
        simp at hesc
      · have hp := (workerLoop_progress env yymmdd out_root records 1 _ hl2).2.1
        have ht := workerLoop_total env yymmdd out_root records 1 (initState outFS0 records)
        simp only [worker]
        rw [if_neg (by simp [hl2])]
        simp only [manifestPhase]
        rw [if_neg hm]
        constructor
        · show (workerLoop env yymmdd out_root records 1 (initState outFS0 records)).stats.processed
              = (workerLoop env yymmdd out_root records 1 (initState outFS0 records)).stats.total
          rw [hp, ht]
          simp [initState]
        · show (workerLoop env yymmdd out_root records 1
              (initState outFS0 records)).stats.total = records.length
          rw [ht]
          rfl

end FileNamer
